import Mathlib

/-!
Verification development for the raft durable-log component
(files log.go and log_entry.go of the repository).

The embedding works on byte lists (each byte a natural number below 256).
Machine integers of the source (uint64 index and term, uint32 checksum)
are naturals; all arithmetic used by the source on them (comparison,
formatting, xor and shift inside the checksum) never overflows, so no
explicit reduction is required except where noted.

The Command value of the source is an application-supplied interface
(Name, json.Marshal, json.Unmarshal into a registry-manufactured
instance).  It is modelled by the structure App below: an abstract
payload type together with its name and its serialize and deserialize
functions.  The core code never inspects payload bytes, matching the
source, which hands them to encoding/json.
-/

namespace Raft

/-! ## Bytes and hexadecimal formatting -/

/-- Byte value of the lower-case hexadecimal digit for n below 16,
as produced by the fmt verbs 08x and 016x of the source. -/
def hexDigitChar (n : Nat) : Nat :=
  if n < 10 then 48 + n else 87 + n

/-- Fixed-width zero-padded lower-case hexadecimal rendering of n,
w digits, most significant first: the model of the fmt verb 0wx for
values below 16 to the w. -/
def hexPad : Nat → Nat → List Nat
  | 0, _ => []
  | w + 1, n => hexPad w (n / 16) ++ [hexDigitChar (n % 16)]

/-- Recognizer for hexadecimal digit bytes accepted by the scan verb x
(digits, lower-case and upper-case letters). -/
def isHexDigit (b : Nat) : Bool :=
  (48 ≤ b && b ≤ 57) || (97 ≤ b && b ≤ 102) || (65 ≤ b && b ≤ 70)

/-- Numeric value of a hexadecimal digit byte. -/
def hexVal (b : Nat) : Nat :=
  if b ≤ 57 then b - 48 else if 65 ≤ b && b ≤ 70 then b - 55 else b - 87

/-- Value of a big-endian string of hexadecimal digit bytes. -/
def hexValList (ds : List Nat) : Nat :=
  ds.foldl (fun a d => 16 * a + hexVal d) 0

/-! ## CRC-32/IEEE

Model of hash/crc32 ChecksumIEEE: reflected polynomial 0xEDB88320,
initial value 0xFFFFFFFF, final complement.  All values remain below
2 to the 32 because xor never enlarges operands and shifts only
shrink, so plain naturals model the uint32 state exactly. -/

/-- One bit step of the reflected CRC-32 computation. -/
def crc32Bit (c : Nat) : Nat :=
  if c % 2 = 1 then (c / 2) ^^^ 0xEDB88320 else c / 2

/-- Fold one byte into the CRC state: xor it in, then eight bit steps. -/
def crc32Byte (c b : Nat) : Nat :=
  crc32Bit (crc32Bit (crc32Bit (crc32Bit
    (crc32Bit (crc32Bit (crc32Bit (crc32Bit (c ^^^ b))))))))

/-- CRC-32/IEEE of a byte list, as crc32.ChecksumIEEE computes it. -/
def crc32 (bs : List Nat) : Nat :=
  (bs.foldl crc32Byte 0xFFFFFFFF) ^^^ 0xFFFFFFFF

/-! ## Scanning primitives

These model the reading done by Decode in log_entry.go: fmt.Fscanf
verbs over a bufio reader and a bytes buffer.  The space class of the
fmt scanner on byte values is tab through carriage return (9 to 13)
together with the space byte 32; Fscanf does not treat the newline as
skippable space, so the skipping done by a verb and by a space in a
scan format covers the bytes 9, 11, 12, 13 and 32, while a newline
stops the scan (the verb then fails on it, and a format space leaves
it unread). -/

/-- Skip leading space-class bytes other than newline, as a scan verb
and a space in a scan format do. -/
def skipSpace : List Nat → List Nat
  | [] => []
  | b :: bs =>
    if b = 32 ∨ b = 9 ∨ b = 11 ∨ b = 12 ∨ b = 13 then skipSpace bs else b :: bs

/-- Take at most w leading hexadecimal digit bytes. -/
def takeHex : Nat → List Nat → List Nat × List Nat
  | 0, bs => ([], bs)
  | _ + 1, [] => ([], [])
  | w + 1, b :: bs =>
    if isHexDigit b then
      let p := takeHex w bs
      (b :: p.1, p.2)
    else ([], b :: bs)

/-- Model of the scan verb 0wx: skip spaces, then read one to w
hexadecimal digits; no digit at all is a scan failure. -/
def scanHex (w : Nat) (bs : List Nat) : Option (Nat × List Nat) :=
  let p := takeHex w (skipSpace bs)
  if p.1 = [] then none else some (hexValList p.1, p.2)

/-- Model of the scan verb s: skip spaces, then the maximal run of
bytes outside the space class (which for the token break includes the
newline). -/
def scanToken (bs : List Nat) : List Nat × List Nat :=
  (skipSpace bs).span (fun b =>
    decide (b ≠ 32) && decide (b ≠ 9) && decide (b ≠ 10) &&
    decide (b ≠ 11) && decide (b ≠ 12) && decide (b ≠ 13))

/-- Model of ReadString reading up to and including a newline: returns
the line including its newline and the remainder, or the read prefix
alone when the input ends first (the io.EOF case). -/
def readLine : List Nat → List Nat × Option (List Nat)
  | [] => ([], none)
  | b :: bs =>
    if b = 10 then ([10], some bs)
    else
      let p := readLine bs
      (b :: p.1, p.2)

/-! ## The buffered reads of the json decoder

Decode hands the line buffer to json.NewDecoder.  The decoder reads
from the buffer in growing chunks: its refill first takes up to 512
bytes, and each later refill doubles the internal buffer and fills it,
so the cumulative amounts drawn from the buffer are 512, 1536, 3584
and so on; refilling stops as soon as the buffered bytes contain the
complete first json value.  The buffer is therefore drained exactly
when the chunk amount covering the value also covers the whole
remainder; otherwise bytes — the trailing newline included — stay
behind, and the final read-one-byte check of Decode sees one of them
instead of end of input. -/

/-- Smallest cumulative refill amount covering v bytes, starting from
the first chunk of 512 and growing to twice the previous amount plus
512.  The first argument is fuel bounding the search; every step grows
the amount, so fuel v always suffices. -/
def jsonBoundaryAux : Nat → Nat → Nat → Nat
  | 0, _, b => b
  | fuel + 1, v, b => if v ≤ b then b else jsonBoundaryAux fuel v (2 * b + 512)

/-- The number of bytes the json decoder draws from a buffer holding
at least that many in order to see a complete first value of v
bytes. -/
def jsonBoundary (v : Nat) : Nat := jsonBoundaryAux v v 512

/-! ## The Command capability and log entries -/

/-- The application side of the Command interface: a payload type, its
stable name, serialization (json.Marshal, which can fail), and
deserialization of the bytes remaining in the line buffer into an
instance manufactured for a given registered name (the json decoder,
which reads the first json value of the buffer).  A successful
deserialization also reports how many leading bytes the json scanner
consumes before it knows the first value is complete — for a value
closed by a brace or bracket, the exact byte length of the value — a
count never exceeding the buffer length; the chunked reads of the
decoder pull bytes from the buffer until they cover that count. -/
structure App : Type 1 where
  Cmd : Type
  name : Cmd → List Nat
  marshal : Cmd → Option (List Nat)
  unmarshal : List Nat → List Nat → Option (Cmd × Nat)

/-- A log entry: index, term and command, as in log_entry.go.  The
back-reference to the owning log carries only the command registry and
is passed explicitly to decode instead. -/
structure LogEntry (C : Type) where
  index : Nat
  term : Nat
  command : C
deriving DecidableEq

/-! ## Error messages of the source (format arguments elided)

The invalid-argument message is the error of the operating system for
a write on an absent file handle: SetCommitIndex passes the handle
field of the log to Encode as a writer, and that interface value is
never the nil Encode guards against — the field is a typed pointer —
so with no file open the failure surfaces from the write itself. -/

def errMarshal : String := "raft.LogEntry: json marshal failure"
def errChecksumRead : String := "raft.LogEntry: Unable to read checksum"
def errExpectedSpace : String := "raft.LogEntry: Expected space"
def errUnexpectedEOF : String := "raft.LogEntry: Unexpected EOF"
def errBadChecksum : String := "raft.LogEntry: Invalid checksum"
def errScan : String := "raft.LogEntry: Unable to scan"
def errUnregistered : String := "raft.LogEntry: Unable to instantiate command"
def errUnableDecode : String := "raft.LogEntry: Unable to decode"
def errExpectedEOL : String := "raft.LogEntry: Expected EOL"
def errInvalid : String := "invalid argument"
def errNotOpen : String := "raft.Log: Log is not open"
def errEarlierTerm : String := "raft.Log: Cannot append entry with earlier term"
def errEarlierIndex : String := "raft.Log: Cannot append entry with earlier index in the same term"
def errCommitRegression : String := "raft.Log: Commit index ahead of requested commit index"

/-! ## Encode (log_entry.go lines 55 to 82) -/

/-- The payload line of an encoded entry: index and term as sixteen
hex digits, the command name, the payload bytes, single spaces between
fields and a terminating newline.  This is the buffer b of Encode, the
region the checksum covers. -/
def encodeBody (idx trm : Nat) (nm p : List Nat) : List Nat :=
  hexPad 16 idx ++ [32] ++ hexPad 16 trm ++ [32] ++ nm ++ [32] ++ p ++ [10]

/-- Bytes Encode writes for an entry: eight hex digits of the CRC-32
of the payload line, a space, then the payload line.  None when
json.Marshal fails. -/
def encodeBytes (app : App) (e : LogEntry app.Cmd) : Option (List Nat) :=
  match app.marshal e.command with
  | none => none
  | some p =>
    let body := encodeBody e.index e.term (app.name e.command) p
    some (hexPad 8 (crc32 body) ++ [32] ++ body)

/-- Encode against the file handle of the log, as SetCommitIndex
invokes it.  The source guards against a nil writer first, but the
handle field of the log is a typed pointer, so the interface value
Encode receives here is never that nil even when no file is open and
the guard never fires on this path; Encode then marshals (reporting a
marshal failure before anything is written), renders the line, and
writes it — and with the handle absent the write is what fails, with
the invalid-argument error of the operating system. -/
def encodeTo (app : App) (isOpen : Bool) (e : LogEntry app.Cmd) :
    Except String (List Nat) :=
  match encodeBytes app e with
  | none => .error errMarshal
  | some out => if isOpen then .ok out else .error errInvalid

/-! ## Decode (log_entry.go lines 86 to 159)

Decode reads the eight checksum digits (the source then adds exactly 8
to its position counter regardless of the bytes actually consumed),
one space, then the rest of the line including its newline; verifies
the CRC over that line; scans index, term and command name from the
line buffer; instantiates the command by name from the registry; and
hands the remaining buffer to the json decoder.  After a successful
json decode the source reads one more byte from the buffer and demands
end of input.  The json decoder pulls bytes from that buffer in its
refill chunks, stopping as soon as the first value is complete within
what it buffered, so the buffer is drained exactly when the chunk
amount covering the value covers the whole remainder; otherwise the
expected-EOL error fires — even on a line Encode itself wrote, when
the value completes exactly at a refill boundary and the newline stays
behind. -/

def decode (app : App) (reg : List (List Nat)) (input : List Nat) :
    Except String (LogEntry app.Cmd × Nat × List Nat) :=
  match scanHex 8 input with
  | none => .error errChecksumRead
  | some (chk, r1) =>
    match r1 with
    | [] => .error errExpectedSpace
    | c :: r2 =>
      if c = 32 then
        match readLine r2 with
        | (_, none) => .error errUnexpectedEOF
        | (line, some rest) =>
          if crc32 line = chk then
            match scanHex 16 line with
            | none => .error errScan
            | some (idx, s1) =>
              match scanHex 16 s1 with
              | none => .error errScan
              | some (trm, s2) =>
                let t := scanToken s2
                if t.1 = [] then .error errScan
                else
                  if t.1 ∈ reg then
                    match app.unmarshal t.1 (skipSpace t.2) with
                    | none => .error errUnableDecode
                    | some (cmd, v) =>
                      if (skipSpace t.2).length ≤ jsonBoundary v then
                        .ok (⟨idx, trm, cmd⟩, 9 + line.length, rest)
                      else .error errExpectedEOL
                  else .error errUnregistered
          else .error errBadChecksum
      else .error errExpectedSpace

/-! ### Consumption bounds, needed to justify termination of the
replay loop of Open (each successful decode consumes at least one
byte of the file). -/

theorem skipSpace_length_le (bs : List Nat) :
    (skipSpace bs).length ≤ bs.length := by
  induction bs with
  | nil => simp [skipSpace]
  | cons b bs ih =>
    simp only [skipSpace]
    split
    · exact Nat.le_trans ih (Nat.le_succ _)
    · simp

theorem takeHex_length (w : Nat) (bs : List Nat) :
    (takeHex w bs).1.length + (takeHex w bs).2.length = bs.length := by
  induction w generalizing bs with
  | zero => simp [takeHex]
  | succ w ih =>
    cases bs with
    | nil => simp [takeHex]
    | cons b bs =>
      simp only [takeHex]
      split
      · have := ih bs
        simp only [List.length_cons]
        omega
      · simp

theorem scanHex_length_lt {w : Nat} {bs r : List Nat} {v : Nat}
    (h : scanHex w bs = some (v, r)) : r.length < bs.length := by
  simp only [scanHex] at h
  split at h
  · exact absurd h (by simp)
  · rename_i hne
    have hpart := takeHex_length w (skipSpace bs)
    have hskip := skipSpace_length_le bs
    have hd : 0 < (takeHex w (skipSpace bs)).1.length := by
      cases hh : (takeHex w (skipSpace bs)).1 with
      | nil => exact absurd hh hne
      | cons x xs => simp [hh]
    have hr : r = (takeHex w (skipSpace bs)).2 := by
      injection h with h1
      exact (congrArg Prod.snd h1).symm
    rw [hr]
    omega

theorem readLine_some_spec {bs l r : List Nat}
    (h : readLine bs = (l, some r)) :
    l.length + r.length = bs.length ∧ 0 < l.length := by
  induction bs generalizing l r with
  | nil => simp [readLine] at h
  | cons b bs ih =>
    simp only [readLine] at h
    split at h
    · rw [Prod.mk.injEq] at h
      obtain ⟨h1, h2⟩ := h
      have h3 : bs = r := Option.some.inj h2
      subst h1 h3
      simp [Nat.add_comm]
    · rw [Prod.mk.injEq] at h
      obtain ⟨h1, h2⟩ := h
      have hsnd : readLine bs = ((readLine bs).1, some r) := by
        rw [← h2]
      obtain ⟨ha, hb⟩ := ih hsnd
      subst h1
      simp only [List.length_cons]
      omega

theorem decode_rest_lt {app : App} {reg : List (List Nat)}
    {input : List Nat} {e : LogEntry app.Cmd} {n : Nat} {rest : List Nat}
    (h : decode app reg input = .ok (e, n, rest)) :
    rest.length < input.length := by
  simp only [decode] at h
  repeat' split at h
  any_goals exact Except.noConfusion h
  rename scanHex 8 input = some _ => hscan
  rename readLine _ = (_, some _) => hread
  have h1 := Except.ok.inj h
  rw [Prod.mk.injEq, Prod.mk.injEq] at h1
  obtain ⟨-, -, hr⟩ := h1
  have h4 := congrArg List.length hr
  have h5 := scanHex_length_lt hscan
  have h6 := readLine_some_spec hread
  simp only [List.length_cons] at h5
  omega

/-! ## The Log aggregate and its operations (log.go)

The file handle is modelled by the flag isOpen together with the byte
contents of the backing file; the World pairs a Log with the contents
of the one path the log is used against (none when no file exists at
the path yet).  The command registry, populated once at setup by
AddCommandType, is the list of registered names. -/

structure Log (C : Type) where
  isOpen : Bool
  entries : List (LogEntry C)
  commitIndex : Nat
  commandTypes : List (List Nat)
deriving DecidableEq

structure World (app : App) where
  log : Log app.Cmd
  file : Option (List Nat)

/-- A freshly constructed log (NewLog) with its registry already
populated, against a path with no file yet. -/
def initWorld (app : App) (reg : List (List Nat)) : World app :=
  ⟨⟨false, [], 0, reg⟩, none⟩

/-- Outcome of the replay loop of Open: the accumulated in-memory
entries, the commit index, the byte offset of the last successful
decode, and whether a decode failure stopped the loop (in which case
Open truncates the file to that offset). -/
structure ReplayResult (C : Type) where
  entries : List (LogEntry C)
  commitIndex : Nat
  lastIndex : Nat
  truncated : Bool
deriving DecidableEq

/-- The replay loop of Open (log.go lines 107 to 129): until the
reader is exhausted, decode one entry; on success set the commit index
to the index of the entry, advance the byte offset by the consumed
count and append the entry; on failure stop and report truncation. -/
def replayLoop (app : App) (reg : List (List Nat)) (input : List Nat)
    (entries : List (LogEntry app.Cmd)) (ci lastIndex : Nat) :
    ReplayResult app.Cmd :=
  match input with
  | [] => ⟨entries, ci, lastIndex, false⟩
  | b :: bs =>
    match h : decode app reg (b :: bs) with
    | .error _ => ⟨entries, ci, lastIndex, true⟩
    | .ok (e, n, rest) =>
      replayLoop app reg rest (entries ++ [e]) e.index (lastIndex + n)
termination_by input.length
decreasing_by simpa using decode_rest_lt h

/-- Open (log.go lines 91 to 142): if a file exists, replay it,
truncating to the last good offset when a decode fails, and leave the
commit index at the index of the last replayed entry; then hold the
file open for appending (creating it when absent).  Replay appends to
whatever entries the log already holds and starts from its current
commit index, exactly as the source does.  Operating-system failures
of open and truncate are outside the byte-level model, so the error
component is always none. -/
def openLog (app : App) (w : World app) : Option String × World app :=
  match w.file with
  | none =>
    (none, ⟨⟨true, w.log.entries, w.log.commitIndex, w.log.commandTypes⟩, some []⟩)
  | some bs =>
    let r := replayLoop app w.log.commandTypes bs w.log.entries w.log.commitIndex 0
    let bs2 := if r.truncated then bs.take r.lastIndex else bs
    (none, ⟨⟨true, r.entries, r.commitIndex, w.log.commandTypes⟩, some bs2⟩)

/-- Close (log.go lines 145 to 154): drop the file handle and reset
the in-memory sequence to empty.  The commit index and the file
contents are untouched. -/
def close (app : App) (w : World app) : World app :=
  ⟨⟨false, [], w.log.commitIndex, w.log.commandTypes⟩, w.file⟩

/-- Append (log.go lines 192 to 214): reject when the log is not
open; against a non-empty sequence reject an earlier term, or an index
equal to the last index (the source spells the second condition as the
conjunction index equal and index not greater, kept verbatim);
otherwise append to the in-memory sequence only. -/
def append (app : App) (e : LogEntry app.Cmd) (w : World app) :
    Option String × World app :=
  if w.log.isOpen then
    match w.log.entries.getLast? with
    | none =>
      (none, ⟨⟨true, w.log.entries ++ [e], w.log.commitIndex, w.log.commandTypes⟩, w.file⟩)
    | some last =>
      if e.term < last.term then (some errEarlierTerm, w)
      else if e.index = last.index ∧ e.index ≤ last.index then
        (some errEarlierIndex, w)
      else
        (none, ⟨⟨true, w.log.entries ++ [e], w.log.commitIndex, w.log.commandTypes⟩, w.file⟩)
  else (some errNotOpen, w)

/-- The scan of SetCommitIndex (log.go lines 172 to 182) over the
in-memory entries: every entry with index above the current commit
index and not above the requested one is encoded to the file and the
commit index advances to its index; an encode failure returns at once
with the state written so far. -/
def commitLoop (app : App) (isOpen : Bool) (idx : Nat) :
    List (LogEntry app.Cmd) → Nat → Option (List Nat) →
    Nat × Option (List Nat) × Option String
  | [], ci, f => (ci, f, none)
  | e :: es, ci, f =>
    if ci < e.index ∧ e.index ≤ idx then
      match encodeTo app isOpen e with
      | .error msg => (ci, f, some msg)
      | .ok out => commitLoop app isOpen idx es e.index (some (f.getD [] ++ out))
    else commitLoop app isOpen idx es ci f

/-- SetCommitIndex (log.go lines 162 to 185): reject a request below
the current commit index, otherwise run the scan.  The source never
checks that the log is open here; with the file handle absent the
write of the first in-range entry fails inside Encode with the nil
writer error. -/
def setCommitIndex (app : App) (idx : Nat) (w : World app) :
    Option String × World app :=
  if idx < w.log.commitIndex then (some errCommitRegression, w)
  else
    let r := commitLoop app w.log.isOpen idx w.log.entries w.log.commitIndex w.file
    (r.2.2, ⟨⟨w.log.isOpen, w.log.entries, r.1, w.log.commandTypes⟩, r.2.1⟩)

/-- The four operations a caller can perform on a Log over its
lifetime, for stating properties of arbitrary call sequences. -/
inductive LogOp (app : App) where
  | openOp : LogOp app
  | closeOp : LogOp app
  | appendOp : LogEntry app.Cmd → LogOp app
  | commitOp : Nat → LogOp app

/-- The state reached after one operation (result values discarded;
error returns leave the state exactly as the operation left it). -/
def step (app : App) (w : World app) : LogOp app → World app
  | .openOp => (openLog app w).2
  | .closeOp => close app w
  | .appendOp e => (append app e w).2
  | .commitOp i => (setCommitIndex app i w).2

/-! ## Facts about hexadecimal formatting and its scanning -/

/-- Lower-case hexadecimal digit bytes: the ones hexPad produces. -/
def isLowerHexDigit (b : Nat) : Bool :=
  (48 ≤ b && b ≤ 57) || (97 ≤ b && b ≤ 102)

theorem hexDigitChar_spec {m : Nat} (h : m < 16) :
    isHexDigit (hexDigitChar m) = true ∧ hexVal (hexDigitChar m) = m ∧
    isLowerHexDigit (hexDigitChar m) = true ∧
    48 ≤ hexDigitChar m ∧ hexDigitChar m ≤ 102 := by
  interval_cases m <;> decide

theorem hexPad_length (w n : Nat) : (hexPad w n).length = w := by
  induction w generalizing n with
  | zero => simp [hexPad]
  | succ w ih => simp [hexPad, ih]

theorem mem_hexPad {w n b : Nat} (h : b ∈ hexPad w n) :
    isHexDigit b = true ∧ isLowerHexDigit b = true ∧ 48 ≤ b ∧ b ≤ 102 := by
  induction w generalizing n with
  | zero => simp [hexPad] at h
  | succ w ih =>
    simp only [hexPad, List.mem_append, List.mem_singleton] at h
    rcases h with h | h
    · exact ih h
    · subst h
      have hm : n % 16 < 16 := Nat.mod_lt n (by omega)
      obtain ⟨h1, _, h3, h4, h5⟩ := hexDigitChar_spec hm
      exact ⟨h1, h3, h4, h5⟩

theorem mem_hexPad_byte {w n b : Nat} (h : b ∈ hexPad w n) :
    ¬(b = 32 ∨ b = 9 ∨ b = 10 ∨ b = 11 ∨ b = 12 ∨ b = 13) ∧ b < 256 := by
  obtain ⟨-, -, h1, h2⟩ := mem_hexPad h
  omega

theorem hexValList_append_single (ds : List Nat) (d : Nat) :
    hexValList (ds ++ [d]) = 16 * hexValList ds + hexVal d := by
  simp [hexValList, List.foldl_append]

theorem hexValList_hexPad {w n : Nat} (h : n < 16 ^ w) :
    hexValList (hexPad w n) = n := by
  induction w generalizing n with
  | zero =>
    simp only [pow_zero, Nat.lt_one_iff] at h
    simp [hexPad, hexValList, h]
  | succ w ih =>
    have hdiv : n / 16 < 16 ^ w := by
      rw [Nat.div_lt_iff_lt_mul (by omega)]
      calc n < 16 ^ (w + 1) := h
        _ = 16 ^ w * 16 := by ring
    have hmod : n % 16 < 16 := Nat.mod_lt n (by omega)
    rw [hexPad, hexValList_append_single, ih hdiv, (hexDigitChar_spec hmod).2.1]
    omega

/-! ## Facts about the scanning primitives on well-formed input -/

theorem skipSpace_cons_of {b : Nat} (bs : List Nat)
    (h : ¬(b = 32 ∨ b = 9 ∨ b = 11 ∨ b = 12 ∨ b = 13)) :
    skipSpace (b :: bs) = b :: bs := by
  simp only [skipSpace, if_neg h]

theorem skipSpace_cons_sp (bs : List Nat) : skipSpace (32 :: bs) = skipSpace bs := by
  simp [skipSpace]

theorem skipSpace_eq_self {l : List Nat}
    (h : ∀ b ∈ l.take 1, ¬(b = 32 ∨ b = 9 ∨ b = 11 ∨ b = 12 ∨ b = 13)) :
    skipSpace l = l := by
  cases l with
  | nil => rfl
  | cons b bs => exact skipSpace_cons_of bs (h b (by simp))

theorem takeHex_exact {ds : List Nat} (rest : List Nat)
    (h : ∀ b ∈ ds, isHexDigit b = true) :
    takeHex ds.length (ds ++ rest) = (ds, rest) := by
  induction ds with
  | nil => simp [takeHex]
  | cons d ds ih =>
    simp only [List.length_cons, List.cons_append, takeHex]
    rw [if_pos (h d (by simp))]
    simp only [List.append_eq]
    rw [ih (fun b hb => h b (by simp [hb]))]

theorem scanHex_cons_sp (w : Nat) (bs : List Nat) :
    scanHex w (32 :: bs) = scanHex w bs := by
  simp [scanHex, skipSpace_cons_sp]

theorem hexPad_exists_cons {w n : Nat} (h0 : 0 < w) :
    ∃ d ds, hexPad w n = d :: ds := by
  cases hh : hexPad w n with
  | nil =>
    have := hexPad_length w n
    rw [hh] at this
    simp at this
    omega
  | cons d ds => exact ⟨d, ds, rfl⟩

theorem scanHex_hexPad {w n : Nat} (h : n < 16 ^ w) (h0 : 0 < w) (rest : List Nat) :
    scanHex w (hexPad w n ++ rest) = some (n, rest) := by
  have hskip : skipSpace (hexPad w n ++ rest) = hexPad w n ++ rest := by
    obtain ⟨d, ds, hds⟩ := hexPad_exists_cons (n := n) h0
    have hd : d ∈ hexPad w n := by rw [hds]; simp
    have hdb := (mem_hexPad_byte hd).1
    rw [hds, List.cons_append]
    exact skipSpace_cons_of _ (by omega)
  have hne : hexPad w n ≠ [] := by
    intro hc
    have hl := hexPad_length w n
    rw [hc] at hl
    simp at hl
    omega
  have htake : takeHex w (hexPad w n ++ rest) = (hexPad w n, rest) := by
    have ht : takeHex (hexPad w n).length (hexPad w n ++ rest) = (hexPad w n, rest) :=
      takeHex_exact rest (fun b hb => (mem_hexPad hb).1)
    rwa [hexPad_length] at ht
  simp only [scanHex, hskip, htake]
  rw [if_neg hne, hexValList_hexPad h]

theorem readLine_cons_ne {b : Nat} (bs : List Nat) (h : b ≠ 10) :
    readLine (b :: bs) = (b :: (readLine bs).1, (readLine bs).2) := by
  simp [readLine, h]

theorem readLine_cons_nl (bs : List Nat) : readLine (10 :: bs) = ([10], some bs) := by
  simp [readLine]

theorem readLine_append {xs : List Nat} (ys : List Nat) (h : ∀ b ∈ xs, b ≠ 10) :
    readLine (xs ++ ys) = (xs ++ (readLine ys).1, (readLine ys).2) := by
  induction xs with
  | nil => simp
  | cons x xs ih =>
    rw [List.cons_append, readLine_cons_ne _ (h x (by simp)),
      ih (fun b hb => h b (by simp [hb]))]
    simp

theorem takeWhile_append_of {p : Nat → Bool} {xs : List Nat}
    (hx : ∀ b ∈ xs, p b = true) {b : Nat} (hb : p b = false) (ys : List Nat) :
    (xs ++ b :: ys).takeWhile p = xs := by
  induction xs with
  | nil => simp [List.takeWhile_cons, hb]
  | cons x xs ih =>
    rw [List.cons_append, List.takeWhile_cons, hx x (by simp)]
    simp only [if_true]
    rw [ih (fun c hc => hx c (by simp [hc]))]

theorem dropWhile_append_of {p : Nat → Bool} {xs : List Nat}
    (hx : ∀ b ∈ xs, p b = true) {b : Nat} (hb : p b = false) (ys : List Nat) :
    (xs ++ b :: ys).dropWhile p = b :: ys := by
  induction xs with
  | nil => simp [List.dropWhile_cons, hb]
  | cons x xs ih =>
    rw [List.cons_append, List.dropWhile_cons, hx x (by simp)]
    simp only [if_true]
    exact ih (fun c hc => hx c (by simp [hc]))

theorem scanToken_cons_sp (bs : List Nat) : scanToken (32 :: bs) = scanToken bs := by
  simp [scanToken, skipSpace_cons_sp]

theorem scanToken_spec {nm : List Nat} (hne : nm ≠ [])
    (hnm : ∀ b ∈ nm, ¬(b = 32 ∨ b = 9 ∨ b = 10 ∨ b = 11 ∨ b = 12 ∨ b = 13))
    (rest : List Nat) :
    scanToken (nm ++ 32 :: rest) = (nm, 32 :: rest) := by
  have hskip : skipSpace (nm ++ 32 :: rest) = nm ++ 32 :: rest := by
    apply skipSpace_eq_self
    intro b hb
    have hmem : b ∈ nm := by
      cases nm with
      | nil => exact absurd rfl hne
      | cons x xs =>
        simp only [List.cons_append, List.take_succ_cons, List.take_zero,
          List.mem_singleton] at hb
        simp [hb]
    have := hnm b hmem
    omega
  have hx : ∀ b ∈ nm, (decide (b ≠ 32) && decide (b ≠ 9) && decide (b ≠ 10) &&
      decide (b ≠ 11) && decide (b ≠ 12) && decide (b ≠ 13)) = true := by
    intro b hb
    have := hnm b hb
    simp
    omega
  have hb : (decide ((32 : Nat) ≠ 32) && decide ((32 : Nat) ≠ 9) && decide ((32 : Nat) ≠ 10) &&
      decide ((32 : Nat) ≠ 11) && decide ((32 : Nat) ≠ 12) && decide ((32 : Nat) ≠ 13)) = false := by
    decide
  rw [scanToken, hskip, List.span_eq_take_drop, takeWhile_append_of hx hb,
    dropWhile_append_of hx hb]

/-! ## Bound on the checksum value -/

theorem crc32Bit_lt {c : Nat} (h : c < 2 ^ 32) : crc32Bit c < 2 ^ 32 := by
  unfold crc32Bit
  have hdiv : c / 2 < 2 ^ 32 := Nat.lt_of_le_of_lt (Nat.div_le_self c 2) h
  split
  · exact Nat.xor_lt_two_pow hdiv (by norm_num)
  · exact hdiv

theorem crc32Byte_lt {c b : Nat} (hc : c < 2 ^ 32) (hb : b < 256) :
    crc32Byte c b < 2 ^ 32 := by
  unfold crc32Byte
  have h0 : c ^^^ b < 2 ^ 32 := Nat.xor_lt_two_pow hc (by omega)
  exact crc32Bit_lt (crc32Bit_lt (crc32Bit_lt (crc32Bit_lt
    (crc32Bit_lt (crc32Bit_lt (crc32Bit_lt (crc32Bit_lt h0)))))))

theorem crc32_lt {bs : List Nat} (h : ∀ b ∈ bs, b < 256) : crc32 bs < 2 ^ 32 := by
  have haux : ∀ (l : List Nat) (c : Nat), c < 2 ^ 32 → (∀ b ∈ l, b < 256) →
      l.foldl crc32Byte c < 2 ^ 32 := by
    intro l
    induction l with
    | nil => intro c hc _; simpa using hc
    | cons x xs ih =>
      intro c hc hl
      rw [List.foldl_cons]
      exact ih _ (crc32Byte_lt hc (hl x (by simp))) (fun b hb => hl b (by simp [hb]))
  exact Nat.xor_lt_two_pow (haux bs 0xFFFFFFFF (by norm_num) h) (by norm_num)

/-! ## Well-formedness of commands against the on-disk format

These predicates record the contract the spec places on application
payloads, sharpened by what the codec actually demands: the command
name is a nonempty token free of scanner space bytes, the marshalled
payload is newline-free (section 6 of the spec: no embedded raw
newline) and does not begin with scan-skippable space, deserializing
the marshalled bytes reproduces the command, and the line remainder —
payload plus newline — stays within the refill chunk covering the json
value, so that the decoder drains the line buffer (a payload whose
value completes exactly at a refill boundary, such as one of exactly
512 bytes, fails the final end-of-line check of Decode even though
Encode wrote it). -/

def WFName (nm : List Nat) : Prop :=
  nm ≠ [] ∧ ∀ b ∈ nm, b < 256 ∧ ¬(b = 32 ∨ b = 9 ∨ b = 10 ∨ b = 11 ∨ b = 12 ∨ b = 13)

def WFPayload (p : List Nat) : Prop :=
  (∀ b ∈ p, b < 256 ∧ b ≠ 10) ∧
  ∀ b ∈ p.take 1, ¬(b = 32 ∨ b = 9 ∨ b = 11 ∨ b = 12 ∨ b = 13)

/-- An entry the codec round-trips: 64-bit index and term, well-formed
registered name, a payload that marshals and unmarshals cleanly, and a
json value whose refill chunk covers the payload and its newline. -/
def WFEntry (app : App) (reg : List (List Nat)) (e : LogEntry app.Cmd) : Prop :=
  e.index < 2 ^ 64 ∧ e.term < 2 ^ 64 ∧ WFName (app.name e.command) ∧
  app.name e.command ∈ reg ∧
  ∃ p v, app.marshal e.command = some p ∧ WFPayload p ∧
    app.unmarshal (app.name e.command) (p ++ [10]) = some (e.command, v) ∧
    p.length + 1 ≤ jsonBoundary v

theorem encodeBody_byte_lt {idx trm : Nat} {nm q0 : List Nat}
    (hnm : ∀ b ∈ nm, b < 256) (hq : ∀ b ∈ q0, b < 256) :
    ∀ b ∈ encodeBody idx trm nm q0, b < 256 := by
  intro b hb
  simp only [encodeBody, List.mem_append, List.mem_singleton] at hb
  rcases hb with ((((((h | h) | h) | h) | h) | h) | h) | h
  · exact (mem_hexPad_byte h).2
  · omega
  · exact (mem_hexPad_byte h).2
  · omega
  · exact hnm b h
  · omega
  · exact hq b h
  · omega

theorem encodeBody_crc_lt {idx trm : Nat} {nm q0 : List Nat}
    (hnm : ∀ b ∈ nm, b < 256) (hq : ∀ b ∈ q0, b < 256) :
    crc32 (encodeBody idx trm nm q0) < 16 ^ 8 := by
  have h : (16 : Nat) ^ 8 = 2 ^ 32 := by norm_num
  rw [h]
  exact crc32_lt (encodeBody_byte_lt hnm hq)

/-! ## Decoding an encoded line

The central codec fact: the decoder, run on a line whose checksum
field holds the CRC-32 of the line, whose index and term are sixteen
hex digits, whose name is a well-formed registered token and whose
remaining bytes deserialize to a command, reaches the final
end-of-line check with all fields read, and the outcome is decided
there by the refill chunks of the json decoder: when the chunk
covering the value covers the whole remainder — the tail q0 plus the
newline — the line is accepted with exactly the encoded fields, the
full byte count of the line and the untouched remainder of the input;
when the value completes at a refill boundary short of the remainder,
the expected-EOL error fires.  The tail q0 is everything between the
name separator and the newline: for an encoded entry it is the
marshalled payload, and it may also carry extra bytes after the
payload. -/

theorem decode_line (app : App) (reg : List (List Nat)) (idx trm C v : Nat)
    (nm q0 : List Nat) (c : app.Cmd) (rest : List Nat)
    (hidx : idx < 2 ^ 64) (htrm : trm < 2 ^ 64)
    (hnm : WFName nm)
    (hq : ∀ b ∈ q0, b < 256 ∧ b ≠ 10)
    (hqh : ∀ b ∈ q0.take 1, ¬(b = 32 ∨ b = 9 ∨ b = 11 ∨ b = 12 ∨ b = 13))
    (hreg : nm ∈ reg)
    (hun : app.unmarshal nm (q0 ++ [10]) = some (c, v))
    (hC : C = crc32 (hexPad 16 idx ++ (32 :: (hexPad 16 trm ++ (32 :: (nm ++ (32 :: (q0 ++ [10])))))))) :
    decode app reg
      (hexPad 8 C ++ (32 :: (hexPad 16 idx ++ (32 :: (hexPad 16 trm ++ (32 :: (nm ++ (32 :: (q0 ++ (10 :: rest)))))))))) =
      (if (q0 ++ [10]).length ≤ jsonBoundary v then
        .ok (⟨idx, trm, c⟩,
          9 + (hexPad 16 idx ++ (32 :: (hexPad 16 trm ++ (32 :: (nm ++ (32 :: (q0 ++ [10]))))))).length,
          rest)
      else .error errExpectedEOL) := by
  obtain ⟨hnm0, hnmb⟩ := hnm
  subst hC
  have hCb : crc32 (hexPad 16 idx ++ (32 :: (hexPad 16 trm ++ (32 :: (nm ++ (32 :: (q0 ++ [10]))))))) < 16 ^ 8 := by
    have hb : crc32 (encodeBody idx trm nm q0) < 16 ^ 8 :=
      encodeBody_crc_lt (fun b hbm => (hnmb b hbm).1) (fun b hbm => (hq b hbm).1)
    have heq : encodeBody idx trm nm q0 =
        hexPad 16 idx ++ (32 :: (hexPad 16 trm ++ (32 :: (nm ++ (32 :: (q0 ++ [10])))))) := by
      simp [encodeBody]
    rwa [heq] at hb
  have e1 := scanHex_hexPad (w := 8) hCb (by norm_num)
    (32 :: (hexPad 16 idx ++ (32 :: (hexPad 16 trm ++ (32 :: (nm ++ (32 :: (q0 ++ (10 :: rest)))))))))
  have hq10 : ∀ b ∈ q0, b ≠ 10 := fun b hb => (hq b hb).2
  have hnm10 : ∀ b ∈ nm, b ≠ 10 := fun b hb => by have := hnmb b hb; omega
  have hhex10 : ∀ (w n : Nat), ∀ b ∈ hexPad w n, b ≠ 10 := fun w n b hb => by
    have := (mem_hexPad_byte hb).1
    omega
  have r7 : readLine (q0 ++ (10 :: rest)) = (q0 ++ [10], some rest) := by
    rw [readLine_append _ hq10, readLine_cons_nl]
  have r6 : readLine (32 :: (q0 ++ (10 :: rest))) = (32 :: (q0 ++ [10]), some rest) := by
    rw [readLine_cons_ne _ (by omega), r7]
  have r5 : readLine (nm ++ (32 :: (q0 ++ (10 :: rest)))) =
      (nm ++ (32 :: (q0 ++ [10])), some rest) := by
    rw [readLine_append _ hnm10, r6]
  have r4 : readLine (32 :: (nm ++ (32 :: (q0 ++ (10 :: rest))))) =
      (32 :: (nm ++ (32 :: (q0 ++ [10]))), some rest) := by
    rw [readLine_cons_ne _ (by omega), r5]
  have r3 : readLine (hexPad 16 trm ++ (32 :: (nm ++ (32 :: (q0 ++ (10 :: rest)))))) =
      (hexPad 16 trm ++ (32 :: (nm ++ (32 :: (q0 ++ [10])))), some rest) := by
    rw [readLine_append _ (hhex10 16 trm), r4]
  have r2 : readLine (32 :: (hexPad 16 trm ++ (32 :: (nm ++ (32 :: (q0 ++ (10 :: rest))))))) =
      (32 :: (hexPad 16 trm ++ (32 :: (nm ++ (32 :: (q0 ++ [10]))))), some rest) := by
    rw [readLine_cons_ne _ (by omega), r3]
  have r1 : readLine (hexPad 16 idx ++ (32 :: (hexPad 16 trm ++ (32 :: (nm ++ (32 :: (q0 ++ (10 :: rest)))))))) =
      (hexPad 16 idx ++ (32 :: (hexPad 16 trm ++ (32 :: (nm ++ (32 :: (q0 ++ [10])))))), some rest) := by
    rw [readLine_append _ (hhex10 16 idx), r2]
  have hidx16 : idx < 16 ^ 16 := by
    have : (16 : Nat) ^ 16 = 2 ^ 64 := by norm_num
    omega
  have htrm16 : trm < 16 ^ 16 := by
    have : (16 : Nat) ^ 16 = 2 ^ 64 := by norm_num
    omega
  have p1 := scanHex_hexPad (w := 16) hidx16 (by norm_num)
    (32 :: (hexPad 16 trm ++ (32 :: (nm ++ (32 :: (q0 ++ [10]))))))
  have p2 : scanHex 16 (32 :: (hexPad 16 trm ++ (32 :: (nm ++ (32 :: (q0 ++ [10])))))) =
      some (trm, 32 :: (nm ++ (32 :: (q0 ++ [10])))) := by
    rw [scanHex_cons_sp]
    exact scanHex_hexPad htrm16 (by norm_num) _
  have p3 : scanToken (32 :: (nm ++ (32 :: (q0 ++ [10])))) = (nm, 32 :: (q0 ++ [10])) := by
    rw [scanToken_cons_sp]
    exact scanToken_spec hnm0 (fun b hb => (hnmb b hb).2) (q0 ++ [10])
  have p4 : skipSpace (32 :: (q0 ++ [10])) = q0 ++ [10] := by
    rw [skipSpace_cons_sp]
    apply skipSpace_eq_self
    intro b hb
    cases q0 with
    | nil =>
      simp at hb
      omega
    | cons y ys =>
      have hb2 : b = y := by simpa using hb
      subst hb2
      exact hqh b (by simp)
  simp only [decode, e1, r1, p1, p2, p3, p4, hun]
  simp [hnm0, hreg]

/-- The accepted case of decode_line: the chunk covering the json
value covers the tail and its newline, so the buffer drains and the
line is accepted. -/
theorem decode_line_ok (app : App) (reg : List (List Nat)) (idx trm C v : Nat)
    (nm q0 : List Nat) (c : app.Cmd) (rest : List Nat)
    (hidx : idx < 2 ^ 64) (htrm : trm < 2 ^ 64)
    (hnm : WFName nm)
    (hq : ∀ b ∈ q0, b < 256 ∧ b ≠ 10)
    (hqh : ∀ b ∈ q0.take 1, ¬(b = 32 ∨ b = 9 ∨ b = 11 ∨ b = 12 ∨ b = 13))
    (hreg : nm ∈ reg)
    (hun : app.unmarshal nm (q0 ++ [10]) = some (c, v))
    (hC : C = crc32 (hexPad 16 idx ++ (32 :: (hexPad 16 trm ++ (32 :: (nm ++ (32 :: (q0 ++ [10]))))))))
    (hbound : q0.length + 1 ≤ jsonBoundary v) :
    decode app reg
      (hexPad 8 C ++ (32 :: (hexPad 16 idx ++ (32 :: (hexPad 16 trm ++ (32 :: (nm ++ (32 :: (q0 ++ (10 :: rest)))))))))) =
      .ok (⟨idx, trm, c⟩,
        9 + (hexPad 16 idx ++ (32 :: (hexPad 16 trm ++ (32 :: (nm ++ (32 :: (q0 ++ [10]))))))).length,
        rest) := by
  rw [decode_line app reg idx trm C v nm q0 c rest hidx htrm hnm hq hqh hreg hun hC,
    if_pos (by simpa using hbound)]

/-- The rejected case of decode_line: the json value completes at a
refill boundary short of the tail and its newline, bytes stay in the
line buffer, and Decode reports the expected-EOL error. -/
theorem decode_line_eol (app : App) (reg : List (List Nat)) (idx trm C v : Nat)
    (nm q0 : List Nat) (c : app.Cmd) (rest : List Nat)
    (hidx : idx < 2 ^ 64) (htrm : trm < 2 ^ 64)
    (hnm : WFName nm)
    (hq : ∀ b ∈ q0, b < 256 ∧ b ≠ 10)
    (hqh : ∀ b ∈ q0.take 1, ¬(b = 32 ∨ b = 9 ∨ b = 11 ∨ b = 12 ∨ b = 13))
    (hreg : nm ∈ reg)
    (hun : app.unmarshal nm (q0 ++ [10]) = some (c, v))
    (hC : C = crc32 (hexPad 16 idx ++ (32 :: (hexPad 16 trm ++ (32 :: (nm ++ (32 :: (q0 ++ [10]))))))))
    (hbound : jsonBoundary v < q0.length + 1) :
    decode app reg
      (hexPad 8 C ++ (32 :: (hexPad 16 idx ++ (32 :: (hexPad 16 trm ++ (32 :: (nm ++ (32 :: (q0 ++ (10 :: rest)))))))))) =
      .error errExpectedEOL := by
  rw [decode_line app reg idx trm C v nm q0 c rest hidx htrm hnm hq hqh hreg hun hC,
    if_neg (by simp; omega)]

theorem encodeBytes_eq {app : App} {e : LogEntry app.Cmd} {p : List Nat}
    (h : app.marshal e.command = some p) :
    encodeBytes app e =
      some (hexPad 8 (crc32 (encodeBody e.index e.term (app.name e.command) p)) ++ [32]
        ++ encodeBody e.index e.term (app.name e.command) p) := by
  simp [encodeBytes, h]

/-- Round trip through the writer and reader of one entry: decoding
the encoded bytes, followed by anything at all, returns the original
entry, consumes exactly the encoded byte count, and leaves the
remainder untouched. -/
theorem decode_encode (app : App) (reg : List (List Nat)) {e : LogEntry app.Cmd}
    {out : List Nat} (rest : List Nat) (hwf : WFEntry app reg e)
    (hout : encodeBytes app e = some out) :
    decode app reg (out ++ rest) = .ok (e, out.length, rest) := by
  obtain ⟨hidx, htrm, hnm, hreg, p, v, hm, hp, hun, hb⟩ := hwf
  obtain ⟨idx, trm, cmd⟩ := e
  rw [encodeBytes_eq hm] at hout
  have hsub := (Option.some.inj hout).symm
  subst hsub
  have hd := decode_line_ok app reg idx trm (crc32 (encodeBody idx trm (app.name cmd) p)) v
    (app.name cmd) p cmd rest hidx htrm hnm hp.1 hp.2
    hreg hun (by simp [encodeBody]) hb
  simp only [encodeBody, List.append_assoc, List.cons_append, List.singleton_append,
    List.nil_append] at hd ⊢
  rw [hd]
  simp [hexPad_length]
  omega

/-! ## Files made of encoded entries, and replaying them -/

/-- The byte contents of a file holding the encodings of the given
entries in order; none when some entry does not marshal. -/
def encodeList (app : App) : List (LogEntry app.Cmd) → Option (List Nat)
  | [] => some []
  | e :: es =>
    match encodeBytes app e, encodeList app es with
    | some out, some bs => some (out ++ bs)
    | _, _ => none

/-- The index of the last entry of a list, or a default: the value the
commit index holds after replaying or committing those entries from a
state where it held the default. -/
def lastIndexD {C : Type} (es : List (LogEntry C)) (d : Nat) : Nat :=
  match es.getLast? with
  | none => d
  | some e => e.index

theorem lastIndexD_nil {C : Type} (d : Nat) : lastIndexD ([] : List (LogEntry C)) d = d := rfl

theorem lastIndexD_cons {C : Type} (e : LogEntry C) (es : List (LogEntry C)) (d : Nat) :
    lastIndexD (e :: es) d = lastIndexD es e.index := by
  cases es with
  | nil => simp [lastIndexD]
  | cons f fs =>
    cases hl : (f :: fs).getLast? with
    | none => simp at hl
    | some x => simp [lastIndexD, List.getLast?_cons_cons, hl]

theorem encodeBytes_some {app : App} {e : LogEntry app.Cmd} {out : List Nat}
    (h : encodeBytes app e = some out) :
    ∃ p, app.marshal e.command = some p ∧
      out = hexPad 8 (crc32 (encodeBody e.index e.term (app.name e.command) p)) ++ [32]
        ++ encodeBody e.index e.term (app.name e.command) p := by
  unfold encodeBytes at h
  cases hm : app.marshal e.command with
  | none => rw [hm] at h; exact absurd h (by simp)
  | some p =>
    rw [hm] at h
    exact ⟨p, rfl, (Option.some.inj h).symm⟩

theorem encodeBytes_ne_nil {app : App} {e : LogEntry app.Cmd} {out : List Nat}
    (h : encodeBytes app e = some out) : out ≠ [] := by
  obtain ⟨p, -, hout⟩ := encodeBytes_some h
  subst hout
  obtain ⟨d, ds, hds⟩ := hexPad_exists_cons (w := 8)
    (n := crc32 (encodeBody e.index e.term (app.name e.command) p)) (by omega)
  rw [hds]
  simp

theorem replayLoop_nil (app : App) (reg : List (List Nat))
    (acc : List (LogEntry app.Cmd)) (ci li : Nat) :
    replayLoop app reg [] acc ci li = ⟨acc, ci, li, false⟩ := by
  rw [replayLoop]

theorem replayLoop_cons_ok {app : App} {reg : List (List Nat)} {b : Nat}
    {bs : List Nat} {e : LogEntry app.Cmd} {n : Nat} {rest : List Nat}
    (acc : List (LogEntry app.Cmd)) (ci li : Nat)
    (h : decode app reg (b :: bs) = .ok (e, n, rest)) :
    replayLoop app reg (b :: bs) acc ci li =
      replayLoop app reg rest (acc ++ [e]) e.index (li + n) := by
  rw [replayLoop]
  split
  · rename_i heq
    rw [h] at heq
    cases heq
  · rename_i e2 n2 rest2 heq
    rw [h] at heq
    obtain ⟨h1, h2, h3⟩ : e = e2 ∧ n = n2 ∧ rest = rest2 := by
      have := Except.ok.inj heq
      rw [Prod.mk.injEq, Prod.mk.injEq] at this
      exact ⟨this.1, this.2.1, this.2.2⟩
    subst h1 h2 h3
    rfl

theorem replayLoop_cons_err {app : App} {reg : List (List Nat)} {b : Nat}
    {bs : List Nat} {msg : String}
    (acc : List (LogEntry app.Cmd)) (ci li : Nat)
    (h : decode app reg (b :: bs) = .error msg) :
    replayLoop app reg (b :: bs) acc ci li = ⟨acc, ci, li, true⟩ := by
  rw [replayLoop]
  split
  · rfl
  · rename_i e2 n2 rest2 heq
    rw [h] at heq
    cases heq

/-- Replaying the bytes of well-formed encoded entries runs through
all of them and continues on whatever follows: entries accumulate in
order, the commit index tracks the last replayed index, and the byte
offset advances by exactly the encoded length. -/
theorem replayLoop_append {app : App} {reg : List (List Nat)}
    {es : List (LogEntry app.Cmd)} {bs : List Nat}
    (henc : encodeList app es = some bs)
    (hwf : ∀ e ∈ es, WFEntry app reg e) :
    ∀ (g : List Nat) (acc : List (LogEntry app.Cmd)) (ci li : Nat),
    replayLoop app reg (bs ++ g) acc ci li =
      replayLoop app reg g (acc ++ es) (lastIndexD es ci) (li + bs.length) := by
  induction es generalizing bs with
  | nil =>
    intro g acc ci li
    have hbs : bs = [] := by
      simpa [encodeList] using henc.symm
    subst hbs
    simp [lastIndexD_nil]
  | cons e es ih =>
    intro g acc ci li
    have hstep : ∃ out bs2, encodeBytes app e = some out ∧ encodeList app es = some bs2 ∧
        bs = out ++ bs2 := by
      unfold encodeList at henc
      cases ho : encodeBytes app e with
      | none => rw [ho] at henc; exact absurd henc (by simp)
      | some out =>
        cases hl : encodeList app es with
        | none => rw [ho, hl] at henc; exact absurd henc (by simp)
        | some bs2 =>
          rw [ho, hl] at henc
          exact ⟨out, bs2, rfl, rfl, (Option.some.inj henc).symm⟩
    obtain ⟨out, bs2, ho, hl, hbs⟩ := hstep
    subst hbs
    have hdec : decode app reg (out ++ (bs2 ++ g)) = .ok (e, out.length, bs2 ++ g) :=
      decode_encode app reg (bs2 ++ g) (hwf e (by simp)) ho
    obtain ⟨o1, orest, hout⟩ : ∃ o1 orest, out = o1 :: orest := by
      cases hc : out with
      | nil => exact absurd hc (encodeBytes_ne_nil ho)
      | cons o1 orest => exact ⟨o1, orest, rfl⟩
    rw [List.append_assoc, hout]
    rw [hout] at hdec
    simp only [List.cons_append] at hdec ⊢
    rw [replayLoop_cons_ok acc ci li hdec, lastIndexD_cons,
      ih hl (fun f hf => hwf f (by simp [hf])) g (acc ++ [e]) e.index
        (li + (o1 :: orest).length)]
    congr 1
    · simp
    · simp only [List.length_cons, List.length_append]
      omega

/-! ## Decode failure on a crash-truncated tail -/

theorem mem_skipSpace {b : Nat} : ∀ {l : List Nat}, b ∈ skipSpace l → b ∈ l := by
  intro l
  induction l with
  | nil => simp [skipSpace]
  | cons x xs ih =>
    simp only [skipSpace]
    split
    · intro h
      exact List.mem_cons_of_mem x (ih h)
    · intro h
      exact h

theorem mem_takeHex_snd {b : Nat} : ∀ {w : Nat} {l : List Nat}, b ∈ (takeHex w l).2 → b ∈ l := by
  intro w
  induction w with
  | zero => intro l h; simpa [takeHex] using h
  | succ w ih =>
    intro l h
    cases l with
    | nil => simpa [takeHex] using h
    | cons x xs =>
      simp only [takeHex] at h
      split at h
      · exact List.mem_cons_of_mem x (ih h)
      · exact h

theorem mem_scanHex_rest {w v : Nat} {bs r : List Nat} (h : scanHex w bs = some (v, r))
    {b : Nat} (hb : b ∈ r) : b ∈ bs := by
  simp only [scanHex] at h
  split at h
  · cases h
  · have hr : r = (takeHex w (skipSpace bs)).2 := by
      injection h with h1
      exact (congrArg Prod.snd h1).symm
    rw [hr] at hb
    exact mem_skipSpace (mem_takeHex_snd hb)

theorem readLine_no_nl {bs : List Nat} (h : (10 : Nat) ∉ bs) : readLine bs = (bs, none) := by
  induction bs with
  | nil => simp [readLine]
  | cons b bs ih =>
    have hb : b ≠ 10 := fun hc => h (by simp [hc])
    rw [readLine_cons_ne _ hb, ih (fun hc => h (by simp [hc]))]

/-- A nonempty tail with no newline at all, the typical residue of a
crash in the middle of a write, always fails to decode: either the
checksum or space framing is malformed, or the line read runs into end
of input. -/
theorem decode_no_newline (app : App) (reg : List (List Nat)) {g : List Nat}
    (hne : g ≠ []) (h10 : (10 : Nat) ∉ g) :
    ∃ msg, decode app reg g = .error msg := by
  cases hs : scanHex 8 g with
  | none => exact ⟨errChecksumRead, by simp [decode, hs]⟩
  | some p =>
    obtain ⟨chk, r1⟩ := p
    cases r1 with
    | nil => exact ⟨errExpectedSpace, by simp [decode, hs]⟩
    | cons c r2 =>
      by_cases hc : c = 32
      · subst hc
        have h102 : (10 : Nat) ∉ r2 :=
          fun hm => h10 (mem_scanHex_rest hs (List.mem_cons_of_mem _ hm))
        have hrl := readLine_no_nl h102
        exact ⟨errUnexpectedEOF, by simp [decode, hs, hrl]⟩
      · exact ⟨errExpectedSpace, by simp [decode, hs, hc]⟩

/-! ## The commit scan -/

/-- A well-formed entry marshals. -/
theorem wf_marshal {app : App} {reg : List (List Nat)} {e : LogEntry app.Cmd}
    (h : WFEntry app reg e) : ∃ p, app.marshal e.command = some p := by
  obtain ⟨-, -, -, -, p, v, hm, -, -, -⟩ := h
  exact ⟨p, hm⟩

theorem encodeTo_of_marshal {app : App} {e : LogEntry app.Cmd} {p : List Nat}
    (hm : app.marshal e.command = some p) :
    ∃ out, encodeBytes app e = some out ∧ encodeTo app true e = .ok out := by
  refine ⟨_, encodeBytes_eq hm, ?_⟩
  simp [encodeTo, encodeBytes_eq hm]

theorem encodeTo_of_wf {app : App} {reg : List (List Nat)} {e : LogEntry app.Cmd}
    (hwf : WFEntry app reg e) :
    ∃ out, encodeBytes app e = some out ∧ encodeTo app true e = .ok out := by
  obtain ⟨p, hm⟩ := wf_marshal hwf
  exact encodeTo_of_marshal hm

/-- With the handle absent, encoding always fails: either the marshal
fails first, or the write fails with the invalid-argument error. -/
theorem encodeTo_not_open (app : App) (e : LogEntry app.Cmd) :
    ∃ msg, encodeTo app false e = .error msg := by
  unfold encodeTo
  cases hm : encodeBytes app e with
  | none => exact ⟨errMarshal, rfl⟩
  | some out => exact ⟨errInvalid, rfl⟩

/-- With the handle absent and the entry marshalling, the failure is
the invalid-argument error of the write, reported only after the
marshal — the nil-writer guard of Encode never fires here. -/
theorem encodeTo_not_open_marshal {app : App} {e : LogEntry app.Cmd} {p : List Nat}
    (hm : app.marshal e.command = some p) :
    encodeTo app false e = .error errInvalid := by
  simp [encodeTo, encodeBytes_eq hm]

/-- The scan never lowers the commit index. -/
theorem commitLoop_ci_le (app : App) (o : Bool) (idx : Nat) :
    ∀ (es : List (LogEntry app.Cmd)) (ci : Nat) (f : Option (List Nat)),
    ci ≤ (commitLoop app o idx es ci f).1 := by
  intro es
  induction es with
  | nil => intro ci f; simp [commitLoop]
  | cons e es ih =>
    intro ci f
    simp only [commitLoop]
    split
    · rename_i hin
      cases ho : encodeTo app o e with
      | error msg => exact Nat.le_refl ci
      | ok out =>
        exact Nat.le_trans (Nat.le_of_lt hin.1) (ih e.index (some (f.getD [] ++ out)))
    · exact ih ci f

/-- Entries all outside the requested range are skipped without any
state change. -/
theorem commitLoop_skip {app : App} {o : Bool} {idx : Nat} :
    ∀ {es : List (LogEntry app.Cmd)} {ci : Nat} {f : Option (List Nat)},
    (∀ e ∈ es, ¬(ci < e.index ∧ e.index ≤ idx)) →
    commitLoop app o idx es ci f = (ci, f, none) := by
  intro es
  induction es with
  | nil => intro ci f _; simp [commitLoop]
  | cons e es ih =>
    intro ci f h
    simp only [commitLoop]
    rw [if_neg (h e (by simp))]
    exact ih (fun x hx => h x (by simp [hx]))

/-- On an open log whose entries all round-trip, the scan succeeds,
appends the encodings of the entries it selects to the file in order,
and leaves the commit index at the last selected index. -/
theorem commitLoop_spec (app : App) (reg : List (List Nat)) (idx : Nat) :
    ∀ {es : List (LogEntry app.Cmd)}, (∀ e ∈ es, WFEntry app reg e) →
    ∀ (ci : Nat) (f0 : List Nat),
    ∃ written bs, (∀ e ∈ written, e ∈ es) ∧ encodeList app written = some bs ∧
      commitLoop app true idx es ci (some f0) =
        (lastIndexD written ci, some (f0 ++ bs), none) := by
  intro es
  induction es with
  | nil =>
    intro _ ci f0
    exact ⟨[], [], by simp, rfl, by simp [commitLoop, lastIndexD_nil]⟩
  | cons e es ih =>
    intro hwf ci f0
    simp only [commitLoop]
    split
    · rename_i hin
      obtain ⟨out, hob, hoto⟩ := encodeTo_of_wf (hwf e (by simp))
      rw [hoto]
      obtain ⟨w', bs', hmem, henc, heq⟩ :=
        ih (fun x hx => hwf x (by simp [hx])) e.index (f0 ++ out)
      refine ⟨e :: w', out ++ bs', ?_, ?_, ?_⟩
      · intro x hx
        rcases List.mem_cons.mp hx with hx | hx
        · simp [hx]
        · exact List.mem_cons_of_mem _ (hmem x hx)
      · simp only [encodeList, hob, henc]
      · show commitLoop app true idx es e.index (some (f0 ++ out)) =
          (lastIndexD (e :: w') ci, some (f0 ++ (out ++ bs')), none)
        rw [heq, lastIndexD_cons]
        simp [List.append_assoc]
    · rename_i hout
      obtain ⟨w', bs', hmem, henc, heq⟩ := ih (fun x hx => hwf x (by simp [hx])) ci f0
      exact ⟨w', bs', fun x hx => List.mem_cons_of_mem _ (hmem x hx), henc, heq⟩

/-- The scan on a log holding entries with consecutive indices
start+1, start+2, ... from commit index start: requesting i between
start and the last index writes exactly the entries up to index i and
leaves the commit index at i. -/
theorem commitLoop_seq (app : App) :
    ∀ (es : List (LogEntry app.Cmd)) (start i : Nat) (f0 : List Nat),
    (∀ k (h : k < es.length), (es.get ⟨k, h⟩).index = start + k + 1) →
    (∀ e ∈ es, ∃ p, app.marshal e.command = some p) →
    start ≤ i → i ≤ start + es.length →
    ∃ bs, encodeList app (es.take (i - start)) = some bs ∧
      commitLoop app true i es start (some f0) = (i, some (f0 ++ bs), none) := by
  intro es
  induction es with
  | nil =>
    intro start i f0 hidx hwf hle hub
    simp only [List.length_nil, Nat.add_zero] at hub
    have hi : i = start := by omega
    subst hi
    refine ⟨[], by simp [encodeList], ?_⟩
    simp [commitLoop]
  | cons e es ih =>
    intro start i f0 hidx hwf hle hub
    have he : e.index = start + 1 := by
      have h0 := hidx 0 (by simp)
      simpa using h0
    rcases Nat.eq_or_lt_of_le hle with hi | hlt
    · subst hi
      refine ⟨[], by simp [encodeList], ?_⟩
      rw [commitLoop_skip]
      · simp
      · intro x hx
        obtain ⟨⟨k, hk⟩, hget⟩ := List.mem_iff_get.mp hx
        have hxi : x.index = start + k + 1 := by
          rw [← hget]
          exact hidx k hk
        intro hcon
        omega
    · have hidx2 : ∀ k (h : k < es.length), (es.get ⟨k, h⟩).index = (start + 1) + k + 1 := by
        intro k hk
        have h2 := hidx (k + 1) (by simpa using Nat.succ_lt_succ hk)
        rw [List.get_cons_succ] at h2
        omega
      obtain ⟨p, hp⟩ := hwf e (by simp)
      obtain ⟨out, hob, hoto⟩ := encodeTo_of_marshal hp
      obtain ⟨bs', henc', heq'⟩ := ih (start + 1) i (f0 ++ out) hidx2
        (fun x hx => hwf x (by simp [hx])) (by omega) (by simp at hub ⊢; omega)
      refine ⟨out ++ bs', ?_, ?_⟩
      · have hts : i - start = (i - (start + 1)) + 1 := by omega
        rw [hts, List.take_succ_cons]
        simp only [encodeList, hob, henc']
      · simp only [commitLoop]
        rw [if_pos (by constructor <;> omega), hoto]
        show commitLoop app true i es e.index (some (f0 ++ out)) =
          (i, some (f0 ++ (out ++ bs')), none)
        rw [he, heq']
        simp [List.append_assoc]

/-! ## Sequences of appends -/

/-- The state a caller reaches by appending a list of entries one
after the other, results discarded. -/
def appendList (app : App) (w : World app) (es : List (LogEntry app.Cmd)) : World app :=
  es.foldl (fun w e => (append app e w).2) w

/-- The ordering relation Append enforces between consecutive
entries: no term regression and no repeated index. -/
def AppendOk {C : Type} (a b : LogEntry C) : Prop :=
  a.term ≤ b.term ∧ a.index ≠ b.index

/-- A run of appends on an open log whose combined sequence satisfies
the ordering checks succeeds entry by entry and ends with the entries
simply concatenated; nothing else changes. -/
theorem appendList_spec (app : App) :
    ∀ {es : List (LogEntry app.Cmd)} {w : World app},
    w.log.isOpen = true →
    List.Chain' AppendOk (w.log.entries ++ es) →
    appendList app w es =
      ⟨⟨true, w.log.entries ++ es, w.log.commitIndex, w.log.commandTypes⟩, w.file⟩ := by
  intro es
  induction es with
  | nil =>
    intro w hopen _
    obtain ⟨⟨o, en, ci, reg⟩, f⟩ := w
    simp only at hopen
    subst hopen
    simp [appendList]
  | cons e es ih =>
    intro w hopen hchain
    have hstep : (append app e w).2 =
        ⟨⟨true, w.log.entries ++ [e], w.log.commitIndex, w.log.commandTypes⟩, w.file⟩ := by
      cases hlast : w.log.entries.getLast? with
      | none => simp [append, hopen, hlast]
      | some last =>
        have hr : AppendOk last e := by
          obtain ⟨-, -, hjun⟩ := List.chain'_append.mp hchain
          exact hjun last hlast e (by simp)
        have h1 : ¬ e.term < last.term := by
          have := hr.1
          omega
        have h2 : ¬ (e.index = last.index ∧ e.index ≤ last.index) := by
          intro hc
          exact hr.2 hc.1.symm
        simp [append, hopen, hlast, h1, h2]
    have hrest : appendList app w (e :: es) = appendList app ((append app e w).2) es := rfl
    rw [hrest, hstep, ih (by simp)
      (by simpa [List.append_assoc] using hchain)]
    simp

/-! ## Opening a file of encoded entries -/

/-- Open against a path with no file: no replay, the handle opens on a
fresh empty file, and the in-memory state is untouched. -/
theorem openLog_none {app : App} {w : World app} (h : w.file = none) :
    openLog app w =
      (none, ⟨⟨true, w.log.entries, w.log.commitIndex, w.log.commandTypes⟩, some []⟩) := by
  simp [openLog, h]

/-- Open on a file holding exactly the encodings of well-formed
entries: replay appends them all, the commit index ends at the last
replayed index, and the file is not truncated. -/
theorem openLog_encodeList (app : App) {w : World app}
    {es : List (LogEntry app.Cmd)} {bs : List Nat}
    (hfile : w.file = some bs)
    (henc : encodeList app es = some bs)
    (hwf : ∀ e ∈ es, WFEntry app w.log.commandTypes e) :
    openLog app w =
      (none, ⟨⟨true, w.log.entries ++ es, lastIndexD es w.log.commitIndex,
        w.log.commandTypes⟩, some bs⟩) := by
  have hr : replayLoop app w.log.commandTypes bs w.log.entries w.log.commitIndex 0 =
      ⟨w.log.entries ++ es, lastIndexD es w.log.commitIndex, 0 + bs.length, false⟩ := by
    have h2 := replayLoop_append henc hwf [] w.log.entries w.log.commitIndex 0
    simpa [replayLoop_nil] using h2
  simp [openLog, hfile, hr]

/-- Open on a file holding the encodings of well-formed entries
followed by a nonempty tail that fails to decode: replay recovers
exactly the entries, and the file is truncated to their exact byte
length. -/
theorem openLog_encodeList_garbage (app : App) {w : World app}
    {es : List (LogEntry app.Cmd)} {bs g : List Nat} {msg : String}
    (hfile : w.file = some (bs ++ g))
    (henc : encodeList app es = some bs)
    (hwf : ∀ e ∈ es, WFEntry app w.log.commandTypes e)
    (hg : decode app w.log.commandTypes g = .error msg) (hgne : g ≠ []) :
    openLog app w =
      (none, ⟨⟨true, w.log.entries ++ es, lastIndexD es w.log.commitIndex,
        w.log.commandTypes⟩, some bs⟩) := by
  obtain ⟨b, g2, hbg⟩ : ∃ b g2, g = b :: g2 := by
    cases hc : g with
    | nil => exact absurd hc hgne
    | cons b g2 => exact ⟨b, g2, rfl⟩
  subst hbg
  have hr : replayLoop app w.log.commandTypes (bs ++ b :: g2) w.log.entries w.log.commitIndex 0 =
      ⟨w.log.entries ++ es, lastIndexD es w.log.commitIndex, 0 + bs.length, true⟩ := by
    rw [replayLoop_append henc hwf (b :: g2) w.log.entries w.log.commitIndex 0,
      replayLoop_cons_err _ _ _ hg]
  have htake : (bs ++ b :: g2).take (0 + bs.length) = bs := by
    simpa using List.take_left bs (b :: g2)
  simp [openLog, hfile, hr, htake]

/-! ## Support for the reachable-state invariant -/

theorem lastIndexD_append {C : Type} (xs ys : List (LogEntry C)) (d : Nat) :
    lastIndexD (xs ++ ys) d = lastIndexD ys (lastIndexD xs d) := by
  induction xs generalizing d with
  | nil => simp [lastIndexD_nil]
  | cons x xs ih => rw [List.cons_append, lastIndexD_cons, lastIndexD_cons, ih]

theorem lastIndexD_of_ne_nil {C : Type} {ys : List (LogEntry C)} (h : ys ≠ [])
    (d d2 : Nat) : lastIndexD ys d = lastIndexD ys d2 := by
  cases hl : ys.getLast? with
  | none =>
    rw [List.getLast?_eq_none_iff] at hl
    exact absurd hl h
  | some x => simp [lastIndexD, hl]

theorem encodeList_append {app : App} {xs ys : List (LogEntry app.Cmd)}
    {bx by2 : List Nat} (hx : encodeList app xs = some bx)
    (hy : encodeList app ys = some by2) :
    encodeList app (xs ++ ys) = some (bx ++ by2) := by
  induction xs generalizing bx with
  | nil =>
    have hbx : bx = [] := by simpa [encodeList] using hx.symm
    subst hbx
    simpa using hy
  | cons e xs ih =>
    simp only [encodeList] at hx
    cases ho : encodeBytes app e with
    | none => rw [ho] at hx; cases hx
    | some out =>
      rw [ho] at hx
      cases hl : encodeList app xs with
      | none => rw [hl] at hx; cases hx
      | some bs2 =>
        rw [hl] at hx
        have hbx : bx = out ++ bs2 := (Option.some.inj hx).symm
        subst hbx
        rw [List.cons_append]
        simp only [encodeList, ho, ih hl]
        simp [List.append_assoc]

theorem encodeList_isSome {app : App} {reg : List (List Nat)}
    {es : List (LogEntry app.Cmd)} (hwf : ∀ e ∈ es, WFEntry app reg e) :
    ∃ bs, encodeList app es = some bs := by
  induction es with
  | nil => exact ⟨[], rfl⟩
  | cons e es ih =>
    obtain ⟨out, hob, -⟩ := encodeTo_of_wf (hwf e (by simp))
    obtain ⟨bs, hbs⟩ := ih (fun x hx => hwf x (by simp [hx]))
    exact ⟨out ++ bs, by simp [encodeList, hob, hbs]⟩

/-- With the file handle absent, the scan changes nothing: the write
of the first in-range entry fails at once — on the marshal, or on the
invalid-argument write error of the absent handle — and entries
outside the range are skipped. -/
theorem commitLoop_not_open (app : App) (idx : Nat) :
    ∀ (es : List (LogEntry app.Cmd)) (ci : Nat) (f : Option (List Nat)),
    (commitLoop app false idx es ci f).1 = ci ∧
    (commitLoop app false idx es ci f).2.1 = f := by
  intro es
  induction es with
  | nil => intro ci f; simp [commitLoop]
  | cons e es ih =>
    intro ci f
    simp only [commitLoop]
    split
    · obtain ⟨msg, hmsg⟩ := encodeTo_not_open app e
      rw [hmsg]
      simp
    · exact ih ci f

/-- With the file handle absent, every entry marshalling, and some
entry inside the requested range, the scan stops with the
invalid-argument error of the write on the absent handle. -/
theorem commitLoop_not_open_err (app : App) (idx : Nat) :
    ∀ (es : List (LogEntry app.Cmd)) (ci : Nat) (f : Option (List Nat)),
    (∀ e ∈ es, ∃ p, app.marshal e.command = some p) →
    (∃ e ∈ es, ci < e.index ∧ e.index ≤ idx) →
    (commitLoop app false idx es ci f).2.2 = some errInvalid := by
  intro es
  induction es with
  | nil => intro ci f _ h; simp at h
  | cons e es ih =>
    intro ci f hmar h
    simp only [commitLoop]
    split
    · obtain ⟨p, hp⟩ := hmar e (by simp)
      rw [encodeTo_not_open_marshal hp]
    · rename_i hnot
      obtain ⟨x, hx, hrange⟩ := h
      rcases List.mem_cons.mp hx with hx | hx
      · subst hx
        exact absurd hrange hnot
      · exact ih ci f (fun y hy => hmar y (by simp [hy])) ⟨x, hx, hrange⟩

/-- A request below the current commit index is rejected outright and
changes nothing at all. -/
theorem setCommitIndex_regress {app : App} {w : World app} {j : Nat}
    (h : j < w.log.commitIndex) :
    setCommitIndex app j w = (some errCommitRegression, w) := by
  simp [setCommitIndex, h]

/-- On a log that is not open, SetCommitIndex leaves the world exactly
as it was, whatever its result. -/
theorem setCommitIndex_not_open {app : App} {w : World app}
    (hopen : w.log.isOpen = false) {i : Nat} (hge : ¬ i < w.log.commitIndex) :
    (setCommitIndex app i w).2 = w := by
  obtain ⟨⟨o, en, ci, reg⟩, f⟩ := w
  simp only at hopen hge
  subst hopen
  have hcl := commitLoop_not_open app i en ci f
  simp only [setCommitIndex]
  rw [if_neg hge]
  simp only
  rw [hcl.1, hcl.2]

/-- Invariant of every state a Log reaches through its own operations
against its own file: in-memory entries all round-trip, and the file
holds exactly the encodings of a round-tripping entry sequence whose
last index is the commit index (before the first Open the file does
not exist, nothing is in memory and nothing is committed). -/
def Inv (app : App) (w : World app) : Prop :=
  (∀ e ∈ w.log.entries, WFEntry app w.log.commandTypes e) ∧
  match w.file with
  | none => w.log.commitIndex = 0 ∧ w.log.entries = [] ∧ w.log.isOpen = false
  | some bs => ∃ es, encodeList app es = some bs ∧
      (∀ e ∈ es, WFEntry app w.log.commandTypes e) ∧
      lastIndexD es w.log.commitIndex = w.log.commitIndex

theorem inv_init (app : App) (reg : List (List Nat)) : Inv app (initWorld app reg) := by
  refine ⟨by simp [initWorld], ?_⟩
  simp [initWorld]

/-- Either Append rejects and leaves the world untouched, or the log
was open and the entry lands at the end of the in-memory sequence with
nothing else changed. -/
theorem append_cases (app : App) (e : LogEntry app.Cmd) (w : World app) :
    (append app e w).2 = w ∨
    (w.log.isOpen = true ∧ (append app e w).2 =
      ⟨⟨true, w.log.entries ++ [e], w.log.commitIndex, w.log.commandTypes⟩, w.file⟩) := by
  by_cases hopen : w.log.isOpen = true
  · cases hlast : w.log.entries.getLast? with
    | none => exact Or.inr ⟨hopen, by simp [append, hopen, hlast]⟩
    | some last =>
      by_cases h1 : e.term < last.term
      · exact Or.inl (by simp [append, hopen, hlast, h1])
      · by_cases h2 : e.index = last.index ∧ e.index ≤ last.index
        · exact Or.inl (by simp [append, hopen, hlast, h1, h2])
        · exact Or.inr ⟨hopen, by simp [append, hopen, hlast, h1, h2]⟩
  · have hcl : w.log.isOpen = false := by
      cases hh : w.log.isOpen
      · rfl
      · exact absurd hh hopen
    exact Or.inl (by simp [append, hcl])

theorem step_commandTypes (app : App) (w : World app) (op : LogOp app) :
    (step app w op).log.commandTypes = w.log.commandTypes := by
  cases op with
  | openOp =>
    cases hf : w.file with
    | none => simp [step, openLog, hf]
    | some bs => simp [step, openLog, hf]
  | closeOp => rfl
  | appendOp e =>
    rcases append_cases app e w with h | ⟨-, h⟩ <;> simp [step, h]
  | commitOp i =>
    by_cases h : i < w.log.commitIndex
    · simp [step, setCommitIndex_regress h]
    · simp [step, setCommitIndex, h]

/-- One operation preserves the invariant and never lowers the commit
index. -/
theorem step_inv {app : App} {w : World app} (hInv : Inv app w) (op : LogOp app)
    (hop : ∀ e, op = .appendOp e → WFEntry app w.log.commandTypes e) :
    Inv app (step app w op) ∧
      w.log.commitIndex ≤ (step app w op).log.commitIndex := by
  obtain ⟨hmem, hfile⟩ := hInv
  cases op with
  | openOp =>
    cases hf : w.file with
    | none =>
      rw [hf] at hfile
      obtain ⟨hci, hen, -⟩ := hfile
      have ho := openLog_none (w := w) hf
      constructor
      · refine ⟨by simpa [step, ho] using hmem, ?_⟩
        simp only [step, ho]
        refine ⟨[], rfl, by simp, ?_⟩
        rfl
      · simp [step, ho]
    | some bs =>
      rw [hf] at hfile
      obtain ⟨es, henc, heswf, hlast⟩ := hfile
      have ho := openLog_encodeList app (w := w) hf henc heswf
      constructor
      · refine ⟨?_, ?_⟩
        · intro x hx
          simp only [step, ho] at hx
          rcases List.mem_append.mp hx with hx | hx
          · simpa [step, ho] using hmem x hx
          · simpa [step, ho] using heswf x hx
        · simp only [step, ho, hlast]
          exact ⟨es, henc, heswf, hlast⟩
      · simp [step, ho, hlast]
  | closeOp =>
    constructor
    · refine ⟨by simp [step, close], ?_⟩
      cases hf : w.file with
      | none =>
        rw [hf] at hfile
        simp only [step, close, hf]
        exact ⟨hfile.1, trivial, trivial⟩
      | some bs =>
        rw [hf] at hfile
        obtain ⟨es, henc, heswf, hlast⟩ := hfile
        simp only [step, close, hf]
        exact ⟨es, henc, heswf, hlast⟩
    · simp [step, close]
  | appendOp e =>
    rcases append_cases app e w with h | ⟨hopen, h⟩
    · rw [step, h]
      exact ⟨⟨hmem, hfile⟩, Nat.le_refl _⟩
    · rw [step, h]
      constructor
      · refine ⟨?_, ?_⟩
        · intro x hx
          rcases List.mem_append.mp hx with hx | hx
          · exact hmem x hx
          · have hx2 : x = e := by simpa using hx
            subst hx2
            exact hop x rfl
        · cases hf : w.file with
          | none =>
            rw [hf] at hfile
            obtain ⟨-, -, hcl⟩ := hfile
            rw [hopen] at hcl
            cases hcl
          | some bs =>
            rw [hf] at hfile
            exact hfile
      · exact Nat.le_refl _
  | commitOp i =>
    by_cases hlt : i < w.log.commitIndex
    · rw [step, setCommitIndex_regress hlt]
      exact ⟨⟨hmem, hfile⟩, Nat.le_refl _⟩
    · cases hopen : w.log.isOpen with
      | false =>
        have hw : (setCommitIndex app i w).2 = w := setCommitIndex_not_open hopen hlt
        rw [step, hw]
        exact ⟨⟨hmem, hfile⟩, Nat.le_refl _⟩
      | true =>
        cases hf : w.file with
        | none =>
          rw [hf] at hfile
          obtain ⟨-, -, hcl⟩ := hfile
          rw [hopen] at hcl
          cases hcl
        | some f0 =>
          rw [hf] at hfile
          obtain ⟨es, henc, heswf, hlast⟩ := hfile
          obtain ⟨written, bs2, hwmem, hwenc, heq⟩ :=
            commitLoop_spec app w.log.commandTypes i hmem w.log.commitIndex f0
          have hstep : step app w (.commitOp i) =
              ⟨⟨w.log.isOpen, w.log.entries,
                lastIndexD written w.log.commitIndex, w.log.commandTypes⟩,
                some (f0 ++ bs2)⟩ := by
            simp only [step, setCommitIndex, if_neg hlt, hopen, hf, heq]
          constructor
          · rw [hstep]
            refine ⟨hmem, ?_⟩
            refine ⟨es ++ written, encodeList_append henc hwenc, ?_, ?_⟩
            · intro x hx
              rcases List.mem_append.mp hx with hx | hx
              · exact heswf x hx
              · exact hmem x (hwmem x hx)
            · by_cases hwn : written = []
              · subst hwn
                simpa [lastIndexD_nil] using hlast
              · rw [lastIndexD_append]
                rw [lastIndexD_of_ne_nil hwn _ w.log.commitIndex]
          · rw [hstep]
            have := commitLoop_ci_le app true i w.log.entries w.log.commitIndex (some f0)
            rw [heq] at this
            exact this

/-- Well-formedness of one operation of a call sequence: appended
entries must round-trip against the registry; the other operations
carry no payload. -/
def WFOp (app : App) (reg : List (List Nat)) : LogOp app → Prop
  | .appendOp e => WFEntry app reg e
  | _ => True

theorem head?_scanl {α β : Type} (f : β → α → β) (b : β) (l : List α) :
    (List.scanl f b l).head? = some b := by
  cases l with
  | nil => simp [List.scanl_nil]
  | cons a l => simp [List.scanl_cons]

/-- Along any run of operations from an invariant state, the commit
index never decreases between consecutive states. -/
theorem chain_scanl_ci {app : App} :
    ∀ (ops : List (LogOp app)) (w : World app), Inv app w →
    (∀ op ∈ ops, WFOp app w.log.commandTypes op) →
    List.Chain' (fun w1 w2 => w1.log.commitIndex ≤ w2.log.commitIndex)
      (List.scanl (step app) w ops) := by
  intro ops
  induction ops with
  | nil =>
    intro w _ _
    simp [List.scanl_nil]
  | cons op ops ih =>
    intro w hInv hwf
    rw [List.scanl_cons]
    simp only [List.singleton_append]
    have hstep := step_inv hInv op (fun e he => by
      have hw := hwf op (by simp)
      rw [he] at hw
      exact hw)
    apply List.Chain'.cons'
    · exact ih (step app w op) hstep.1 (fun o ho => by
        rw [step_commandTypes]
        exact hwf o (by simp [ho]))
    · intro y hy
      rw [head?_scanl] at hy
      have hz : step app w op = y := Option.some.inj hy
      rw [← hz]
      exact hstep.2

/-! ## Lists of entries with consecutive indices -/

theorem filter_eq_take_of_seq {C : Type} :
    ∀ (es : List (LogEntry C)) (start i : Nat),
    (∀ k (h : k < es.length), (es.get ⟨k, h⟩).index = start + k + 1) →
    es.filter (fun e => decide (e.index ≤ i)) = es.take (i - start) := by
  intro es
  induction es with
  | nil => intro start i _; simp
  | cons e es ih =>
    intro start i hidx
    have he : e.index = start + 1 := by simpa using hidx 0 (by simp)
    have hidx2 : ∀ k (h : k < es.length), (es.get ⟨k, h⟩).index = (start + 1) + k + 1 := by
      intro k hk
      have h2 := hidx (k + 1) (by simpa using Nat.succ_lt_succ hk)
      rw [List.get_cons_succ] at h2
      omega
    by_cases hc : e.index ≤ i
    · have h1 : i - start = (i - (start + 1)) + 1 := by omega
      rw [List.filter_cons_of_pos (by simpa using hc), h1, List.take_succ_cons,
        ih (start + 1) i hidx2]
    · rw [List.filter_cons_of_neg (by simpa using hc)]
      have h0 : i - start = 0 := by omega
      rw [h0, List.take_zero]
      rw [List.filter_eq_nil_iff]
      intro x hx
      obtain ⟨⟨k, hk⟩, hget⟩ := List.mem_iff_get.mp hx
      have hxi : x.index = (start + 1) + k + 1 := by
        rw [← hget]
        exact hidx2 k hk
      simp only [decide_eq_true_eq]
      omega

theorem lastIndexD_take_seq {C : Type} (es : List (LogEntry C)) (i : Nat)
    (hidx : ∀ k (h : k < es.length), (es.get ⟨k, h⟩).index = k + 1)
    (hle : i ≤ es.length) :
    lastIndexD (es.take i) i = i := by
  cases hi : es.take i with
  | nil => simp [lastIndexD]
  | cons x xs =>
    have hlen : (es.take i).length = i := by
      rw [List.length_take]
      omega
    have hpos : 0 < i := by
      rw [← hlen, hi]
      simp
    have hget : (es.take i)[i - 1]? = es[i - 1]? := List.getElem?_take_of_lt (by omega)
    have hlast : (es.take i).getLast? = some (es.get ⟨i - 1, by omega⟩) := by
      rw [List.getLast?_eq_getElem?]
      simp only [hlen]
      rw [hget, List.getElem?_eq_getElem (by omega)]
      simp [List.get_eq_getElem]
    simp only [lastIndexD, hi] at hlast ⊢
    rw [hlast]
    have := hidx (i - 1) (by omega)
    simp only [List.get_eq_getElem] at this ⊢
    rw [this]
    omega

/-! ## A concrete application: the noop command

An empty-payload command named noop, as in the example scenario of the
spec: its json form is the two bytes of an empty object, and its
deserializer accepts any buffer beginning with that object, exactly as
the json decoder of the source accepts a leading value.  The object is
closed by its brace, so the json scanner knows the value is complete
after those two bytes. -/

def noopName : List Nat := [110, 111, 111, 112]

def NoopApp : App where
  Cmd := Unit
  name := fun _ => noopName
  marshal := fun _ => some [123, 125]
  unmarshal := fun _ bs => if bs.take 2 = [123, 125] then some ((), 2) else none

def noopReg : List (List Nat) := [noopName]

theorem noop_wf (idx trm : Nat) (h1 : idx < 2 ^ 64) (h2 : trm < 2 ^ 64) :
    WFEntry NoopApp noopReg ⟨idx, trm, ()⟩ := by
  refine ⟨h1, h2, ?_, ?_, [123, 125], 2, rfl, ?_, rfl, by decide⟩
  · show WFName noopName
    exact ⟨by decide, by decide⟩
  · show noopName ∈ noopReg
    decide
  · show WFPayload [123, 125]
    exact ⟨by decide, by decide⟩

/-! ## A concrete application: a payload at the refill boundary

A command whose marshalled form is exactly 512 bytes: a struct with a
single string field holding 504 characters, whose json object is
closed by its final brace, so the json scanner knows the value is
complete after exactly those 512 bytes — precisely the first refill
chunk of the decoder.  On a line Encode wrote for it, the decoder
never pulls the trailing newline out of the line buffer and Decode
rejects the line with the expected-EOL error.  The application carries
this command next to the noop command, so that mixed sequences can be
appended, committed and replayed. -/

def padName : List Nat := [112, 97, 100]

/-- The 512-byte json object: left brace, quote, the letter A, quote,
colon, quote, 504 times the letter a, quote, right brace. -/
def padPayload : List Nat :=
  [123, 34, 65, 34, 58, 34] ++ List.replicate 504 97 ++ [34, 125]

/-- Deserialization of the mixed application: a noop instance reads
its two-byte object, a pad instance reads its 512-byte object (the
count at which the json scanner sees each value complete). -/
def padUnmarshal (nm bs : List Nat) : Option (Bool × Nat) :=
  if nm = noopName then (if bs.take 2 = [123, 125] then some (false, 2) else none)
  else if nm = padName then
    (if bs.take 512 = padPayload then some (true, 512) else none)
  else none

def PadApp : App where
  Cmd := Bool
  name := fun c => if c then padName else noopName
  marshal := fun c => if c then some padPayload else some [123, 125]
  unmarshal := padUnmarshal

def padReg : List (List Nat) := [noopName, padName]

instance : DecidableEq PadApp.Cmd := inferInstanceAs (DecidableEq Bool)

theorem padPayload_length : padPayload.length = 512 := by
  norm_num [padPayload]

theorem padPayload_bytes : ∀ b ∈ padPayload, b < 256 ∧ b ≠ 10 := by
  intro b hb
  simp only [padPayload, List.mem_append, List.mem_cons, List.not_mem_nil, or_false,
    List.mem_replicate] at hb
  omega

theorem padPayload_head :
    ∀ b ∈ padPayload.take 1, ¬(b = 32 ∨ b = 9 ∨ b = 11 ∨ b = 12 ∨ b = 13) := by
  intro b hb
  have h1 : padPayload.take 1 = [123] := rfl
  rw [h1] at hb
  have hb2 : b = 123 := by simpa using hb
  omega

theorem padName_wf : WFName padName := ⟨by decide, by decide⟩

set_option maxRecDepth 8000 in
theorem pad_unmarshal :
    PadApp.unmarshal padName (padPayload ++ [10]) = some (true, 512) := by
  have h : (padPayload ++ [10]).take 512 = padPayload := by
    rw [← padPayload_length]
    exact List.take_left _ _
  show padUnmarshal padName (padPayload ++ [10]) = some (true, 512)
  unfold padUnmarshal
  rw [if_neg (by decide), if_pos rfl, if_pos h]

/-- The noop command of the mixed application round-trips; its json
object of two bytes sits far below the first refill chunk. -/
theorem padApp_noop_wf (idx trm : Nat) (h1 : idx < 2 ^ 64) (h2 : trm < 2 ^ 64) :
    WFEntry PadApp padReg ⟨idx, trm, false⟩ := by
  refine ⟨h1, h2, ?_, ?_, [123, 125], 2, rfl, ?_, rfl, by decide⟩
  · show WFName noopName
    exact ⟨by decide, by decide⟩
  · show noopName ∈ padReg
    decide
  · show WFPayload [123, 125]
    exact ⟨by decide, by decide⟩

/-- Decode rejects the very line Encode wrote for the boundary
command, whatever follows it: the json value completes exactly at the
first 512-byte refill, the newline stays in the line buffer, and the
expected-EOL error fires. -/
theorem pad_decode_err (idx trm : Nat) (hidx : idx < 2 ^ 64) (htrm : trm < 2 ^ 64)
    (rest : List Nat) :
    decode PadApp padReg
      ((hexPad 8 (crc32 (encodeBody idx trm padName padPayload)) ++ [32]
        ++ encodeBody idx trm padName padPayload) ++ rest) = .error errExpectedEOL := by
  have hd := decode_line_eol PadApp padReg idx trm
    (crc32 (encodeBody idx trm padName padPayload)) 512 padName padPayload true rest
    hidx htrm padName_wf padPayload_bytes padPayload_head (by decide) pad_unmarshal
    (by simp [encodeBody]) (by rw [padPayload_length]; decide)
  simp only [encodeBody, List.append_assoc, List.cons_append, List.singleton_append,
    List.nil_append] at hd ⊢
  rw [hd]

/-- Reopening a file holding the encodings of the index-one noop entry
followed by the index-two boundary entry recovers only the first:
replay fails on the boundary line, truncates to the first encoding,
and leaves the commit index at 1 whatever it was before. -/
theorem pad_reopen (ci : Nat) {bs : List Nat}
    (henc : encodeList PadApp [⟨1, 1, false⟩, ⟨2, 1, true⟩] = some bs) :
    ∃ bs1, encodeBytes PadApp (⟨1, 1, false⟩ : LogEntry PadApp.Cmd) = some bs1 ∧
      openLog PadApp (⟨⟨false, [], ci, padReg⟩, some bs⟩ : World PadApp) =
        (none, ⟨⟨true, [⟨1, 1, false⟩], 1, padReg⟩, some bs1⟩) := by
  have hm1 : PadApp.marshal (⟨1, 1, false⟩ : LogEntry PadApp.Cmd).command =
      some [123, 125] := rfl
  have hm2 : PadApp.marshal (⟨2, 1, true⟩ : LogEntry PadApp.Cmd).command =
      some padPayload := rfl
  obtain ⟨o1, ho1⟩ : ∃ o, encodeBytes PadApp (⟨1, 1, false⟩ : LogEntry PadApp.Cmd) = some o :=
    ⟨_, encodeBytes_eq hm1⟩
  obtain ⟨o2, ho2, ho2eq⟩ :
      ∃ o, encodeBytes PadApp (⟨2, 1, true⟩ : LogEntry PadApp.Cmd) = some o ∧
        o = hexPad 8 (crc32 (encodeBody 2 1 padName padPayload)) ++ [32]
          ++ encodeBody 2 1 padName padPayload :=
    ⟨_, encodeBytes_eq hm2, rfl⟩
  have hbs : bs = o1 ++ o2 := by
    have hx : encodeList PadApp [⟨1, 1, false⟩, ⟨2, 1, true⟩] = some (o1 ++ (o2 ++ [])) := by
      simp only [encodeList, ho1, ho2]
    rw [hx] at henc
    have h3 := Option.some.inj henc
    simp only [List.append_nil] at h3
    exact h3.symm
  subst hbs
  refine ⟨o1, ho1, ?_⟩
  have hdec : decode PadApp padReg o2 = .error errExpectedEOL := by
    rw [ho2eq]
    simpa using pad_decode_err 2 1 (by norm_num) (by norm_num) []
  have hwfx : ∀ e ∈ ([⟨1, 1, false⟩] : List (LogEntry PadApp.Cmd)),
      WFEntry PadApp padReg e := by
    intro e he
    have he2 : e = ⟨1, 1, false⟩ := by simpa using he
    subst he2
    exact padApp_noop_wf 1 1 (by norm_num) (by norm_num)
  have hrk := @openLog_encodeList_garbage PadApp
    (⟨⟨false, [], ci, padReg⟩, some (o1 ++ o2)⟩ : World PadApp)
    [⟨1, 1, false⟩] o1 o2 errExpectedEOL rfl
    (by simp [encodeList, ho1]) hwfx hdec (encodeBytes_ne_nil ho2)
  simpa [lastIndexD] using hrk

/-! ## The claims -/

/-- C1 (amended).  Durability prefix: on a fresh log opened against a
fresh path, after appending round-tripping entries with indices 1..n
(non-decreasing terms, so every append is accepted; each marshalled
payload staying within the refill chunk of its json value, as the
codec requires for replay) and a successful SetCommitIndex i with i at
most n, the commit index stands at i; closing the log and opening the
same path again yields in memory exactly the entries with index at
most i — the take-i prefix, which coincides with filtering by index at
most i — each equal to the entry originally appended, with the commit
index still i and the file holding exactly the encodings of that
prefix. -/
theorem claim_C1_durability_prefix (app : App) (reg : List (List Nat))
    (es : List (LogEntry app.Cmd)) (i : Nat)
    (hwf : ∀ e ∈ es, WFEntry app reg e)
    (hidx : ∀ k (h : k < es.length), (es.get ⟨k, h⟩).index = k + 1)
    (hterm : List.Chain' (fun a b => a.term ≤ b.term) es)
    (hle : i ≤ es.length) :
    ∃ bs,
      appendList app (openLog app (initWorld app reg)).2 es = ⟨⟨true, es, 0, reg⟩, some []⟩ ∧
      setCommitIndex app i (⟨⟨true, es, 0, reg⟩, some []⟩ : World app) =
        (none, ⟨⟨true, es, i, reg⟩, some bs⟩) ∧
      openLog app (close app (⟨⟨true, es, i, reg⟩, some bs⟩ : World app)) =
        (none, ⟨⟨true, es.take i, i, reg⟩, some bs⟩) ∧
      es.take i = es.filter (fun e => decide (e.index ≤ i)) ∧
      encodeList app (es.take i) = some bs := by
  have hchain : List.Chain' AppendOk es := by
    rw [List.chain'_iff_get]
    intro k hk
    refine ⟨List.chain'_iff_get.mp hterm k hk, ?_⟩
    have i1 := hidx k (by omega)
    have i2 := hidx (k + 1) (by omega)
    intro hcon
    rw [hcon] at i1
    omega
  have hw1 : (openLog app (initWorld app reg)).2 = ⟨⟨true, [], 0, reg⟩, some []⟩ := by
    rw [openLog_none rfl]
    rfl
  have hw2 : appendList app (openLog app (initWorld app reg)).2 es =
      ⟨⟨true, es, 0, reg⟩, some []⟩ := by
    rw [hw1]
    have ha := appendList_spec app
      (w := (⟨⟨true, [], 0, reg⟩, some []⟩ : World app)) rfl (by simpa using hchain)
    simpa using ha
  obtain ⟨bs, henc, hcl⟩ := commitLoop_seq app es 0 i []
    (by simpa using hidx) (fun e he => wf_marshal (hwf e he)) (Nat.zero_le i)
    (by simpa using hle)
  have htake : encodeList app (es.take i) = some bs := by
    simpa using henc
  have hw3 : setCommitIndex app i (⟨⟨true, es, 0, reg⟩, some []⟩ : World app) =
      (none, ⟨⟨true, es, i, reg⟩, some bs⟩) := by
    simp only [setCommitIndex]
    rw [if_neg (by omega)]
    simp only [hcl]
    simp
  have hw5 : openLog app (close app (⟨⟨true, es, i, reg⟩, some bs⟩ : World app)) =
      (none, ⟨⟨true, es.take i, i, reg⟩, some bs⟩) := by
    have hcw : close app (⟨⟨true, es, i, reg⟩, some bs⟩ : World app) =
        ⟨⟨false, [], i, reg⟩, some bs⟩ := rfl
    rw [hcw]
    have ho := openLog_encodeList app
      (w := (⟨⟨false, [], i, reg⟩, some bs⟩ : World app)) rfl htake
      (fun e he => hwf e (List.take_subset _ _ he))
    rw [ho]
    have hl := lastIndexD_take_seq es i hidx hle
    simp [hl]
  exact ⟨bs, hw2, hw3, hw5, (filter_eq_take_of_seq es 0 i (by simpa using hidx)).symm
    |>.trans (by simp), htake⟩

/-- Witness for C1 at the example scenario of the spec: three noop
entries (term 1 index 1, term 1 index 2, term 2 index 3) and a commit
of index 2. -/
theorem claim_C1_durability_prefix_witness :
    ∃ bs,
      appendList NoopApp (openLog NoopApp (initWorld NoopApp noopReg)).2
          [⟨1, 1, ()⟩, ⟨2, 1, ()⟩, ⟨3, 2, ()⟩] =
        ⟨⟨true, [⟨1, 1, ()⟩, ⟨2, 1, ()⟩, ⟨3, 2, ()⟩], 0, noopReg⟩, some []⟩ ∧
      setCommitIndex NoopApp 2
          (⟨⟨true, [⟨1, 1, ()⟩, ⟨2, 1, ()⟩, ⟨3, 2, ()⟩], 0, noopReg⟩, some []⟩ : World NoopApp) =
        (none, ⟨⟨true, [⟨1, 1, ()⟩, ⟨2, 1, ()⟩, ⟨3, 2, ()⟩], 2, noopReg⟩, some bs⟩) ∧
      openLog NoopApp (close NoopApp
          (⟨⟨true, [⟨1, 1, ()⟩, ⟨2, 1, ()⟩, ⟨3, 2, ()⟩], 2, noopReg⟩, some bs⟩ : World NoopApp)) =
        (none, ⟨⟨true,
          ([⟨1, 1, ()⟩, ⟨2, 1, ()⟩, ⟨3, 2, ()⟩] : List (LogEntry NoopApp.Cmd)).take 2,
          2, noopReg⟩, some bs⟩) ∧
      ([⟨1, 1, ()⟩, ⟨2, 1, ()⟩, ⟨3, 2, ()⟩] : List (LogEntry NoopApp.Cmd)).take 2 =
        List.filter (fun e => decide (e.index ≤ 2)) [⟨1, 1, ()⟩, ⟨2, 1, ()⟩, ⟨3, 2, ()⟩] ∧
      encodeList NoopApp
          (([⟨1, 1, ()⟩, ⟨2, 1, ()⟩, ⟨3, 2, ()⟩] : List (LogEntry NoopApp.Cmd)).take 2) =
        some bs :=
  claim_C1_durability_prefix NoopApp noopReg [⟨1, 1, ()⟩, ⟨2, 1, ()⟩, ⟨3, 2, ()⟩] 2
    (by
      intro e he
      simp only [List.mem_cons, List.not_mem_nil, or_false] at he
      rcases he with rfl | rfl | rfl
      · exact noop_wf 1 1 (by norm_num) (by norm_num)
      · exact noop_wf 2 1 (by norm_num) (by norm_num)
      · exact noop_wf 3 2 (by norm_num) (by norm_num))
    (by decide) (by norm_num [List.chain'_cons]) (by norm_num)

/-- Counterexample for C1 as stated: two contract-abiding entries with
indices 1 and 2 — the second carrying the 512-byte payload, which
marshals, embeds no newline and deserializes cleanly — are committed
together by a successful SetCommitIndex 2, yet closing and reopening
recovers only the first entry with the commit index at 1: replay fails
on the boundary line, although both entries have index at most 2. -/
theorem claim_C1_counterexample :
    ∃ bs,
      setCommitIndex PadApp 2
          (⟨⟨true, [⟨1, 1, false⟩, ⟨2, 1, true⟩], 0, padReg⟩, some []⟩ : World PadApp) =
        (none, ⟨⟨true, [⟨1, 1, false⟩, ⟨2, 1, true⟩], 2, padReg⟩, some bs⟩) ∧
      ∃ bs1,
        openLog PadApp (close PadApp
            (⟨⟨true, [⟨1, 1, false⟩, ⟨2, 1, true⟩], 2, padReg⟩, some bs⟩ : World PadApp)) =
          (none, ⟨⟨true, [⟨1, 1, false⟩], 1, padReg⟩, some bs1⟩) ∧
        List.filter (fun e => decide (e.index ≤ 2))
            [(⟨1, 1, false⟩ : LogEntry PadApp.Cmd), ⟨2, 1, true⟩] =
          [⟨1, 1, false⟩, ⟨2, 1, true⟩] ∧
        ([(⟨1, 1, false⟩ : LogEntry PadApp.Cmd)] ≠ [⟨1, 1, false⟩, ⟨2, 1, true⟩]) ∧
        (1 : Nat) ≠ 2 := by
  obtain ⟨bs, henc, hcl⟩ := commitLoop_seq PadApp [⟨1, 1, false⟩, ⟨2, 1, true⟩] 0 2 []
    (by decide)
    (by
      intro e he
      simp only [List.mem_cons, List.not_mem_nil, or_false] at he
      rcases he with rfl | rfl
      · exact ⟨[123, 125], rfl⟩
      · exact ⟨padPayload, rfl⟩)
    (by omega) (by norm_num)
  have henc2 : encodeList PadApp [⟨1, 1, false⟩, ⟨2, 1, true⟩] = some bs := by
    simpa using henc
  have hset : setCommitIndex PadApp 2
      (⟨⟨true, [⟨1, 1, false⟩, ⟨2, 1, true⟩], 0, padReg⟩, some []⟩ : World PadApp) =
      (none, ⟨⟨true, [⟨1, 1, false⟩, ⟨2, 1, true⟩], 2, padReg⟩, some bs⟩) := by
    simp only [setCommitIndex]
    rw [if_neg (by omega)]
    simp only [hcl]
    simp
  obtain ⟨bs1, hb1, hopen⟩ := pad_reopen 2 henc2
  refine ⟨bs, hset, bs1, ?_, by decide, by decide, by decide⟩
  have hclose : close PadApp
      (⟨⟨true, [⟨1, 1, false⟩, ⟨2, 1, true⟩], 2, padReg⟩, some bs⟩ : World PadApp) =
      (⟨⟨false, [], 2, padReg⟩, some bs⟩ : World PadApp) := rfl
  rw [hclose]
  exact hopen

/-- C2 (amended).  Crash-tail recovery: a fresh log opened against a
file holding the encodings of round-tripping entries — each staying
within the refill chunk of its json value, as replay requires —
followed by a nonempty tail that cannot decode (a tail with no
newline, or any tail on which decode fails, such as a line with a bad
checksum) returns no error, recovers exactly those entries in memory,
and truncates the file to exactly their total encoded byte length. -/
theorem claim_C2_crash_tail_recovery (app : App) (reg : List (List Nat))
    (es : List (LogEntry app.Cmd)) (g : List Nat)
    (hwf : ∀ e ∈ es, WFEntry app reg e)
    (hgne : g ≠ [])
    (hg : (10 : Nat) ∉ g ∨ ∃ msg, decode app reg g = .error msg) :
    ∃ bs, encodeList app es = some bs ∧
      openLog app (⟨⟨false, [], 0, reg⟩, some (bs ++ g)⟩ : World app) =
        (none, ⟨⟨true, es, lastIndexD es 0, reg⟩, some bs⟩) := by
  obtain ⟨bs, henc⟩ := encodeList_isSome hwf
  have hdec : ∃ msg, decode app reg g = .error msg := by
    rcases hg with h | h
    · exact decode_no_newline app reg hgne h
    · exact h
  obtain ⟨msg, hmsg⟩ := hdec
  refine ⟨bs, henc, ?_⟩
  have ho := openLog_encodeList_garbage app
    (w := ⟨⟨false, [], 0, reg⟩, some (bs ++ g)⟩) rfl henc hwf hmsg hgne
  simpa using ho

/-- Witness for C2: one noop entry followed by the single garbage
byte x (no newline). -/
theorem claim_C2_crash_tail_recovery_witness :
    ∃ bs, encodeList NoopApp [⟨1, 1, ()⟩] = some bs ∧
      openLog NoopApp (⟨⟨false, [], 0, noopReg⟩, some (bs ++ [120])⟩ : World NoopApp) =
        (none, ⟨⟨true, [⟨1, 1, ()⟩],
          lastIndexD [(⟨1, 1, ()⟩ : LogEntry NoopApp.Cmd)] 0, noopReg⟩, some bs⟩) :=
  claim_C2_crash_tail_recovery NoopApp noopReg [⟨1, 1, ()⟩] [120]
    (by
      intro e he
      simp only [List.mem_cons, List.not_mem_nil, or_false] at he
      rcases he with rfl
      exact noop_wf 1 1 (by norm_num) (by norm_num))
    (by decide) (Or.inl (by decide))

/-- Counterexample for C2 as stated: a file holding exactly the Encode
output for one contract-abiding entry — the 512-byte payload, which
marshals, embeds no newline and deserializes cleanly — followed by a
single garbage byte is not recovered as that entry: replay fails on
the entry itself at the refill boundary, so Open comes back with no
entries at all and truncates the file to length zero rather than to
the entry's encoded length. -/
theorem claim_C2_counterexample :
    ∃ out, encodeBytes PadApp (⟨1, 1, true⟩ : LogEntry PadApp.Cmd) = some out ∧
      openLog PadApp (⟨⟨false, [], 0, padReg⟩, some (out ++ [120])⟩ : World PadApp) =
        (none, ⟨⟨true, [], 0, padReg⟩, some []⟩) ∧
      out ≠ [] ∧ ([] : List (LogEntry PadApp.Cmd)) ≠ [⟨1, 1, true⟩] := by
  have hm : PadApp.marshal (⟨1, 1, true⟩ : LogEntry PadApp.Cmd).command =
      some padPayload := rfl
  obtain ⟨o, ho, hoeq⟩ :
      ∃ o, encodeBytes PadApp (⟨1, 1, true⟩ : LogEntry PadApp.Cmd) = some o ∧
        o = hexPad 8 (crc32 (encodeBody 1 1 padName padPayload)) ++ [32]
          ++ encodeBody 1 1 padName padPayload :=
    ⟨_, encodeBytes_eq hm, rfl⟩
  refine ⟨o, ho, ?_, encodeBytes_ne_nil ho, by decide⟩
  have hdec : decode PadApp padReg (o ++ [120]) = .error errExpectedEOL := by
    rw [hoeq]
    exact pad_decode_err 1 1 (by norm_num) (by norm_num) [120]
  have hrk := @openLog_encodeList_garbage PadApp
    (⟨⟨false, [], 0, padReg⟩, some (o ++ [120])⟩ : World PadApp)
    [] [] (o ++ [120]) errExpectedEOL (by simp) rfl
    (by intro e he; simp at he) hdec (by simp)
  simpa [lastIndexD] using hrk

/-- C4 (amended).  Round trip: an entry holding a registered command
whose payload marshals and unmarshals cleanly, and whose payload plus
newline stays within the refill chunk of its json value (in
particular any payload shorter than 512 bytes), encodes successfully,
and decoding the encoded bytes succeeds, reproduces the entry exactly
(index, term and command, hence command name and payload), consumes
exactly the number of bytes Encode wrote, and leaves nothing over.
Without the chunk condition the round trip fails: a payload whose
json value completes exactly at a refill boundary leaves its newline
in the line buffer and Decode rejects it. -/
theorem claim_C4_roundtrip (app : App) (reg : List (List Nat)) (e : LogEntry app.Cmd)
    (hwf : WFEntry app reg e) :
    ∃ out, encodeBytes app e = some out ∧
      decode app reg out = .ok (e, out.length, []) := by
  obtain ⟨p, hm⟩ := wf_marshal hwf
  refine ⟨_, encodeBytes_eq hm, ?_⟩
  have hd := decode_encode app reg [] hwf (encodeBytes_eq hm)
  simpa using hd

/-- Witness for C4 at a concrete noop entry. -/
theorem claim_C4_roundtrip_witness :
    ∃ out, encodeBytes NoopApp ⟨7, 3, ()⟩ = some out ∧
      decode NoopApp noopReg out = .ok ((⟨7, 3, ()⟩ : LogEntry NoopApp.Cmd), out.length, []) :=
  claim_C4_roundtrip NoopApp noopReg ⟨7, 3, ()⟩ (noop_wf 7 3 (by norm_num) (by norm_num))

/-- Counterexample for C4 as stated: the boundary entry holds a
registered command whose payload serializes and deserializes cleanly
(the json decoder returns the command from the marshalled bytes), yet
decoding the bytes Encode wrote for it does not return the entry — it
fails with the expected-EOL error, because the 512-byte json value
completes exactly at the first refill chunk and the newline is left in
the line buffer. -/
theorem claim_C4_counterexample :
    ∃ out, encodeBytes PadApp (⟨7, 3, true⟩ : LogEntry PadApp.Cmd) = some out ∧
      PadApp.unmarshal padName (padPayload ++ [10]) = some (true, 512) ∧
      decode PadApp padReg out = .error errExpectedEOL := by
  have hm : PadApp.marshal (⟨7, 3, true⟩ : LogEntry PadApp.Cmd).command =
      some padPayload := rfl
  obtain ⟨o, ho, hoeq⟩ :
      ∃ o, encodeBytes PadApp (⟨7, 3, true⟩ : LogEntry PadApp.Cmd) = some o ∧
        o = hexPad 8 (crc32 (encodeBody 7 3 padName padPayload)) ++ [32]
          ++ encodeBody 7 3 padName padPayload :=
    ⟨_, encodeBytes_eq hm, rfl⟩
  refine ⟨o, ho, pad_unmarshal, ?_⟩
  rw [hoeq]
  simpa using pad_decode_err 7 3 (by norm_num) (by norm_num) []

/-- C5 (amended).  Commit monotonicity: along every sequence of Open,
Close, Append and SetCommitIndex calls on a log against its own path —
with appended entries obeying the payload contract strengthened by the
refill-chunk condition, so that a committed entry replays — the commit
index never decreases between consecutive states; and on any log state
whatever, SetCommitIndex with an argument strictly below the commit
index is rejected with the regression error and leaves the whole state
— commit index, entries and file — unchanged.  Without the chunk
condition the first part fails: committing a boundary payload, closing
and reopening drops the commit index below its pre-close value. -/
theorem claim_C5_commit_monotonic (app : App) (reg : List (List Nat))
    (ops : List (LogOp app)) (hwf : ∀ op ∈ ops, WFOp app reg op) :
    List.Chain' (fun w1 w2 => w1.log.commitIndex ≤ w2.log.commitIndex)
      (List.scanl (step app) (initWorld app reg) ops) ∧
    ∀ (w : World app) (j : Nat), j < w.log.commitIndex →
      setCommitIndex app j w = (some errCommitRegression, w) := by
  constructor
  · exact chain_scanl_ci ops (initWorld app reg) (inv_init app reg) hwf
  · intro w j hj
    exact setCommitIndex_regress hj

/-- Witness for C5 on a concrete call sequence — open, append, commit,
close, reopen — together with a concrete rejected regression. -/
theorem claim_C5_commit_monotonic_witness :
    List.Chain' (fun w1 w2 => w1.log.commitIndex ≤ w2.log.commitIndex)
      (List.scanl (step NoopApp) (initWorld NoopApp noopReg)
        [.openOp, .appendOp ⟨1, 1, ()⟩, .commitOp 1, .closeOp, .openOp]) ∧
    setCommitIndex NoopApp 2 (⟨⟨true, [], 5, noopReg⟩, some []⟩ : World NoopApp) =
      (some errCommitRegression, ⟨⟨true, [], 5, noopReg⟩, some []⟩) :=
  ⟨(claim_C5_commit_monotonic NoopApp noopReg
    [.openOp, .appendOp ⟨1, 1, ()⟩, .commitOp 1, .closeOp, .openOp]
    (by
      intro op hop
      simp only [List.mem_cons, List.not_mem_nil, or_false] at hop
      rcases hop with rfl | rfl | rfl | rfl | rfl
      · trivial
      · exact noop_wf 1 1 (by norm_num) (by norm_num)
      · trivial
      · trivial
      · trivial)).1,
   (claim_C5_commit_monotonic NoopApp noopReg
    [.openOp, .appendOp ⟨1, 1, ()⟩, .commitOp 1, .closeOp, .openOp]
    (by
      intro op hop
      simp only [List.mem_cons, List.not_mem_nil, or_false] at hop
      rcases hop with rfl | rfl | rfl | rfl | rfl
      · trivial
      · exact noop_wf 1 1 (by norm_num) (by norm_num)
      · trivial
      · trivial
      · trivial)).2
    ⟨⟨true, [], 5, noopReg⟩, some []⟩ 2 (by norm_num)⟩

/-- Counterexample for C5 as stated: a concrete call sequence — open,
append index 1 (noop), append index 2 (the 512-byte contract-abiding
payload), commit 2, close, reopen — on a fresh log against its own
path, along which the commit index decreases: the commit leaves it at
2, Close keeps it, and the reopen replays only the first entry before
failing on the boundary line, dropping it to 1. -/
theorem claim_C5_counterexample :
    ¬ List.Chain' (fun w1 w2 => w1.log.commitIndex ≤ w2.log.commitIndex)
      (List.scanl (step PadApp) (initWorld PadApp padReg)
        [.openOp, .appendOp ⟨1, 1, false⟩, .appendOp ⟨2, 1, true⟩,
         .commitOp 2, .closeOp, .openOp]) := by
  intro hchain
  obtain ⟨bs, henc, hcl⟩ := commitLoop_seq PadApp [⟨1, 1, false⟩, ⟨2, 1, true⟩] 0 2 []
    (by decide)
    (by
      intro e he
      simp only [List.mem_cons, List.not_mem_nil, or_false] at he
      rcases he with rfl | rfl
      · exact ⟨[123, 125], rfl⟩
      · exact ⟨padPayload, rfl⟩)
    (by omega) (by norm_num)
  have henc2 : encodeList PadApp [⟨1, 1, false⟩, ⟨2, 1, true⟩] = some bs := by
    simpa using henc
  obtain ⟨bs1, hb1, hopen⟩ := pad_reopen 2 henc2
  have h1 : step PadApp (initWorld PadApp padReg) .openOp =
      (⟨⟨true, [], 0, padReg⟩, some []⟩ : World PadApp) := by
    show (openLog PadApp (initWorld PadApp padReg)).2 = _
    rw [openLog_none rfl]
    rfl
  have h2 : step PadApp (⟨⟨true, [], 0, padReg⟩, some []⟩ : World PadApp)
      (.appendOp ⟨1, 1, false⟩) =
      (⟨⟨true, [⟨1, 1, false⟩], 0, padReg⟩, some []⟩ : World PadApp) := by
    show (append PadApp ⟨1, 1, false⟩ _).2 = _
    simp [append]
  have h3 : step PadApp (⟨⟨true, [⟨1, 1, false⟩], 0, padReg⟩, some []⟩ : World PadApp)
      (.appendOp ⟨2, 1, true⟩) =
      (⟨⟨true, [⟨1, 1, false⟩, ⟨2, 1, true⟩], 0, padReg⟩, some []⟩ : World PadApp) := by
    show (append PadApp ⟨2, 1, true⟩ _).2 = _
    simp [append]
  have h4 : step PadApp
      (⟨⟨true, [⟨1, 1, false⟩, ⟨2, 1, true⟩], 0, padReg⟩, some []⟩ : World PadApp)
      (.commitOp 2) =
      (⟨⟨true, [⟨1, 1, false⟩, ⟨2, 1, true⟩], 2, padReg⟩, some bs⟩ : World PadApp) := by
    show (setCommitIndex PadApp 2 _).2 = _
    simp only [setCommitIndex]
    rw [if_neg (by omega)]
    simp only [hcl]
    simp
  have h5 : step PadApp
      (⟨⟨true, [⟨1, 1, false⟩, ⟨2, 1, true⟩], 2, padReg⟩, some bs⟩ : World PadApp)
      .closeOp = (⟨⟨false, [], 2, padReg⟩, some bs⟩ : World PadApp) := rfl
  have h6 : step PadApp (⟨⟨false, [], 2, padReg⟩, some bs⟩ : World PadApp) .openOp =
      (⟨⟨true, [⟨1, 1, false⟩], 1, padReg⟩, some bs1⟩ : World PadApp) := by
    show (openLog PadApp _).2 = _
    rw [hopen]
  rw [List.scanl_cons, h1, List.scanl_cons, h2, List.scanl_cons, h3, List.scanl_cons, h4,
    List.scanl_cons, h5, List.scanl_cons, h6, List.scanl_nil] at hchain
  simp only [List.singleton_append, List.chain'_cons, List.chain'_singleton,
    and_true] at hchain
  have hlast : (2 : Nat) ≤ 1 := hchain.2.2.2.2.2
  omega

/-- C6.  Append ordering enforcement: on an open log with a non-empty
sequence, an entry whose term is below the last term is rejected with
the earlier-term error, and an entry whose index equals the last index
is rejected with an error; in both cases the whole state — entries,
commit index and file — is returned unchanged. -/
theorem claim_C6_append_ordering (app : App) (w : World app)
    (e last : LogEntry app.Cmd)
    (hopen : w.log.isOpen = true)
    (hlast : w.log.entries.getLast? = some last) :
    (e.term < last.term → append app e w = (some errEarlierTerm, w)) ∧
    (e.index = last.index → ∃ msg, append app e w = (some msg, w)) := by
  constructor
  · intro h
    simp [append, hopen, hlast, h]
  · intro h
    by_cases ht : e.term < last.term
    · exact ⟨errEarlierTerm, by simp [append, hopen, hlast, ht]⟩
    · refine ⟨errEarlierIndex, ?_⟩
      simp [append, hopen, hlast, ht, h]

/-- Witness for C6: last entry term 3 index 5; an entry with term 2
and the same index 5 is rejected both ways, with the state returned
unchanged. -/
theorem claim_C6_append_ordering_witness :
    append NoopApp ⟨5, 2, ()⟩
        (⟨⟨true, [⟨5, 3, ()⟩], 0, noopReg⟩, some []⟩ : World NoopApp) =
      (some errEarlierTerm, ⟨⟨true, [⟨5, 3, ()⟩], 0, noopReg⟩, some []⟩) ∧
    ∃ msg, append NoopApp ⟨5, 2, ()⟩
        (⟨⟨true, [⟨5, 3, ()⟩], 0, noopReg⟩, some []⟩ : World NoopApp) =
      (some msg, ⟨⟨true, [⟨5, 3, ()⟩], 0, noopReg⟩, some []⟩) :=
  ⟨(claim_C6_append_ordering NoopApp ⟨⟨true, [⟨5, 3, ()⟩], 0, noopReg⟩, some []⟩
      ⟨5, 2, ()⟩ ⟨5, 3, ()⟩ rfl rfl).1 (by norm_num),
   (claim_C6_append_ordering NoopApp ⟨⟨true, [⟨5, 3, ()⟩], 0, noopReg⟩, some []⟩
      ⟨5, 2, ()⟩ ⟨5, 3, ()⟩ rfl rfl).2 rfl⟩

/-- C7.  Append is memory-only: on an open log, when the ordering
checks pass (empty sequence, or term not below and index different
from the last entry), Append succeeds and the only change is the entry
landing at the end of the in-memory sequence: the file bytes and the
commit index are untouched and all previous entries are preserved. -/
theorem claim_C7_append_memory_only (app : App) (w : World app) (e : LogEntry app.Cmd)
    (hopen : w.log.isOpen = true)
    (hok : w.log.entries = [] ∨ ∃ last, w.log.entries.getLast? = some last ∧
      ¬ e.term < last.term ∧ e.index ≠ last.index) :
    append app e w =
      (none, ⟨⟨true, w.log.entries ++ [e], w.log.commitIndex, w.log.commandTypes⟩, w.file⟩) := by
  rcases hok with h | ⟨last, hlast, h1, h2⟩
  · have hl : w.log.entries.getLast? = none := by simp [h]
    simp [append, hopen, hl]
  · have hcond : ¬(e.index = last.index ∧ e.index ≤ last.index) := fun hc => h2 hc.1
    simp [append, hopen, hlast, h1, hcond]

/-- Witness for C7: appending index 6 term 4 after index 5 term 3
succeeds and only extends the in-memory sequence. -/
theorem claim_C7_append_memory_only_witness :
    append NoopApp ⟨6, 4, ()⟩
      (⟨⟨true, [⟨5, 3, ()⟩], 2, noopReg⟩, some [97]⟩ : World NoopApp) =
      (none, ⟨⟨true, [⟨5, 3, ()⟩] ++ [⟨6, 4, ()⟩], 2, noopReg⟩, some [97]⟩) :=
  claim_C7_append_memory_only NoopApp ⟨⟨true, [⟨5, 3, ()⟩], 2, noopReg⟩, some [97]⟩
    ⟨6, 4, ()⟩ rfl (Or.inr ⟨⟨5, 3, ()⟩, rfl, by decide, by decide⟩)

/-- C3.  Encoded on-disk format: when the command serializes, Encode
produces exactly one line — eight lower-case hex digits of the CRC-32
checksum, a space, the index as sixteen zero-padded lower-case hex
digits, a space, the term likewise, a space, the command name, a
space, the serialized bytes, and a newline — and the checksum is
computed over exactly the bytes from the first index digit through the
newline inclusive.  The digit fields are fixed-width lower-case
hexadecimal and represent the checksum, index and term values
exactly. -/
theorem claim_C3_encoded_format (app : App) (e : LogEntry app.Cmd) (p : List Nat)
    (hm : app.marshal e.command = some p)
    (hidx : e.index < 2 ^ 64) (htrm : e.term < 2 ^ 64)
    (hnb : ∀ b ∈ app.name e.command, b < 256) (hpb : ∀ b ∈ p, b < 256) :
    ∃ out c,
      encodeBytes app e = some out ∧
      out = hexPad 8 c ++ [32] ++ (hexPad 16 e.index ++ [32] ++ hexPad 16 e.term ++ [32]
        ++ app.name e.command ++ [32] ++ p ++ [10]) ∧
      c = crc32 (hexPad 16 e.index ++ [32] ++ hexPad 16 e.term ++ [32]
        ++ app.name e.command ++ [32] ++ p ++ [10]) ∧
      c < 2 ^ 32 ∧
      (hexPad 8 c).length = 8 ∧ (hexPad 16 e.index).length = 16 ∧
      (hexPad 16 e.term).length = 16 ∧
      (∀ b ∈ hexPad 8 c, isLowerHexDigit b = true) ∧
      (∀ b ∈ hexPad 16 e.index, isLowerHexDigit b = true) ∧
      (∀ b ∈ hexPad 16 e.term, isLowerHexDigit b = true) ∧
      hexValList (hexPad 8 c) = c ∧
      hexValList (hexPad 16 e.index) = e.index ∧
      hexValList (hexPad 16 e.term) = e.term := by
  have hc8 : crc32 (encodeBody e.index e.term (app.name e.command) p) < 16 ^ 8 :=
    encodeBody_crc_lt hnb hpb
  have h16 : (16 : Nat) ^ 8 = 2 ^ 32 := by norm_num
  have hi16 : e.index < 16 ^ 16 := by
    have h64 : (16 : Nat) ^ 16 = 2 ^ 64 := by norm_num
    omega
  have ht16 : e.term < 16 ^ 16 := by
    have h64 : (16 : Nat) ^ 16 = 2 ^ 64 := by norm_num
    omega
  refine ⟨_, crc32 (encodeBody e.index e.term (app.name e.command) p),
    encodeBytes_eq hm, rfl, rfl, ?_, hexPad_length _ _, hexPad_length _ _,
    hexPad_length _ _, fun b hb => (mem_hexPad hb).2.1, fun b hb => (mem_hexPad hb).2.1,
    fun b hb => (mem_hexPad hb).2.1, hexValList_hexPad hc8, hexValList_hexPad hi16,
    hexValList_hexPad ht16⟩
  omega

/-- Witness for C3 at a concrete noop entry. -/
theorem claim_C3_encoded_format_witness :
    ∃ out c,
      encodeBytes NoopApp ⟨1, 2, ()⟩ = some out ∧
      out = hexPad 8 c ++ [32] ++ (hexPad 16 (1 : Nat) ++ [32] ++ hexPad 16 (2 : Nat) ++ [32]
        ++ noopName ++ [32] ++ [123, 125] ++ [10]) ∧
      c = crc32 (hexPad 16 (1 : Nat) ++ [32] ++ hexPad 16 (2 : Nat) ++ [32]
        ++ noopName ++ [32] ++ [123, 125] ++ [10]) ∧
      c < 2 ^ 32 ∧
      (hexPad 8 c).length = 8 ∧ (hexPad 16 (1 : Nat)).length = 16 ∧
      (hexPad 16 (2 : Nat)).length = 16 ∧
      (∀ b ∈ hexPad 8 c, isLowerHexDigit b = true) ∧
      (∀ b ∈ hexPad 16 (1 : Nat), isLowerHexDigit b = true) ∧
      (∀ b ∈ hexPad 16 (2 : Nat), isLowerHexDigit b = true) ∧
      hexValList (hexPad 8 c) = c ∧
      hexValList (hexPad 16 (1 : Nat)) = 1 ∧
      hexValList (hexPad 16 (2 : Nat)) = 2 :=
  claim_C3_encoded_format NoopApp ⟨1, 2, ()⟩ [123, 125] rfl (by norm_num) (by norm_num)
    (by decide) (by decide)

/-- C8 (amended).  The end-of-line check of Decode observes only
whether the json decoder drained the line buffer, never the content of
the drained bytes: on a line whose checksum verifies and whose
remaining bytes deserialize to a command, the outcome is decided by
the refill chunks of the decoder — when the chunk covering the json
value covers the whole remainder (payload, any extra bytes between it
and the newline, and the newline itself; in particular whenever that
remainder is at most 512 bytes), the line is accepted, trailing bytes
and all; only when the value completes at a refill boundary short of
the remainder does the expected-EOL error fire. -/
theorem claim_C8_trailing_bytes_accepted (app : App) (reg : List (List Nat))
    (idx trm v : Nat) (nm p junk : List Nat) (c : app.Cmd)
    (hidx : idx < 2 ^ 64) (htrm : trm < 2 ^ 64)
    (hnm : WFName nm) (hreg : nm ∈ reg)
    (hq : ∀ b ∈ p ++ junk, b < 256 ∧ b ≠ 10)
    (hqh : ∀ b ∈ (p ++ junk).take 1, ¬(b = 32 ∨ b = 9 ∨ b = 11 ∨ b = 12 ∨ b = 13))
    (hun : app.unmarshal nm ((p ++ junk) ++ [10]) = some (c, v)) :
    decode app reg (hexPad 8 (crc32 (encodeBody idx trm nm (p ++ junk))) ++ [32]
        ++ encodeBody idx trm nm (p ++ junk)) =
      (if (p ++ junk).length + 1 ≤ jsonBoundary v then
        .ok (⟨idx, trm, c⟩, 9 + (encodeBody idx trm nm (p ++ junk)).length, [])
      else .error errExpectedEOL) := by
  have hd := decode_line app reg idx trm (crc32 (encodeBody idx trm nm (p ++ junk))) v
    nm (p ++ junk) c [] hidx htrm hnm hq hqh hreg hun (by simp [encodeBody])
  simp only [encodeBody, List.append_assoc, List.cons_append, List.singleton_append,
    List.nil_append, List.length_append, List.length_cons, List.length_nil,
    Nat.zero_add, Nat.add_zero, Nat.add_assoc] at hd ⊢
  rw [hd]

/-- Counterexample for C8 as stated: a concrete line for the noop
command whose checksum verifies and whose command deserializes, with
the five bytes space-j-u-n-k between the end of the serialized payload
and the newline; Decode succeeds on it instead of reporting the
unexpected byte. -/
theorem claim_C8_counterexample :
    decode NoopApp noopReg
      (hexPad 8 (crc32 (encodeBody 1 1 noopName [123, 125, 32, 106, 117, 110, 107])) ++ [32]
        ++ encodeBody 1 1 noopName [123, 125, 32, 106, 117, 110, 107]) =
      .ok (⟨1, 1, ()⟩,
        9 + (encodeBody 1 1 noopName [123, 125, 32, 106, 117, 110, 107]).length, []) := by
  have hd := decode_line_ok NoopApp noopReg 1 1
    (crc32 (encodeBody 1 1 noopName [123, 125, 32, 106, 117, 110, 107])) 2
    noopName [123, 125, 32, 106, 117, 110, 107] () [] (by norm_num) (by norm_num)
    ⟨by decide, by decide⟩ (by decide) (by decide) (by decide) rfl
    (by simp [encodeBody]) (by decide)
  simp only [encodeBody, List.append_assoc, List.cons_append, List.singleton_append,
    List.nil_append] at hd ⊢
  rw [hd]

/-- Witness for the amended C8 at a concrete input with the two bytes
space-x after the payload. -/
theorem claim_C8_trailing_bytes_accepted_witness :
    decode NoopApp noopReg
      (hexPad 8 (crc32 (encodeBody 2 2 noopName ([123, 125] ++ [32, 120]))) ++ [32]
        ++ encodeBody 2 2 noopName ([123, 125] ++ [32, 120])) =
      (if ([123, 125] ++ [32, 120] : List Nat).length + 1 ≤ jsonBoundary 2 then
        .ok ((⟨2, 2, ()⟩ : LogEntry NoopApp.Cmd),
          9 + (encodeBody 2 2 noopName ([123, 125] ++ [32, 120])).length, [])
      else .error errExpectedEOL) :=
  claim_C8_trailing_bytes_accepted NoopApp noopReg 2 2 2 noopName [123, 125] [32, 120] ()
    (by norm_num) (by norm_num) ⟨by decide, by decide⟩ (by decide) (by decide)
    (by decide) rfl

/-- C9 (amended).  Append on a log that is not open is always rejected
with the not-open error and changes nothing.  SetCommitIndex does not
check the open state: below the commit index it is rejected with the
regression error; otherwise, with no entries in memory — the case in
every state actually reachable while unopened, since Close clears the
sequence — it returns no error and performs nothing; and if
marshalling entries do sit in the requested range, the first write
attempt fails with the invalid-argument error of the operating system
for the absent handle (the handle field is a typed pointer, so the
nil-writer guard of Encode never fires), again changing nothing. -/
theorem claim_C9_unopened_operations (app : App) (w : World app)
    (e : LogEntry app.Cmd) (i : Nat)
    (hcl : w.log.isOpen = false) :
    append app e w = (some errNotOpen, w) ∧
    (i < w.log.commitIndex → setCommitIndex app i w = (some errCommitRegression, w)) ∧
    (¬ i < w.log.commitIndex → w.log.entries = [] →
      setCommitIndex app i w = (none, w)) ∧
    (¬ i < w.log.commitIndex →
      (∀ x ∈ w.log.entries, ∃ p, app.marshal x.command = some p) →
      (∃ x ∈ w.log.entries, w.log.commitIndex < x.index ∧ x.index ≤ i) →
      setCommitIndex app i w = (some errInvalid, w)) := by
  obtain ⟨⟨o, en, ci, reg⟩, f⟩ := w
  have hcl2 : o = false := hcl
  subst hcl2
  refine ⟨by simp [append], ?_, ?_, ?_⟩
  · intro h
    exact setCommitIndex_regress h
  · intro hge hen
    have hen2 : en = [] := hen
    subst hen2
    simp only [setCommitIndex]
    rw [if_neg hge]
    rfl
  · intro hge hmar hex
    have hmar2 : ∀ x ∈ en, ∃ p, app.marshal x.command = some p := hmar
    have hex2 : ∃ x ∈ en, ci < x.index ∧ x.index ≤ i := hex
    have h1 := commitLoop_not_open app i en ci f
    have h2 := commitLoop_not_open_err app i en ci f hmar2 hex2
    simp only [setCommitIndex]
    rw [if_neg hge]
    rw [h1.1, h1.2, h2]

/-- Counterexample for C9 as stated: on a freshly constructed, never
opened log, SetCommitIndex 5 returns no error at all (the in-memory
sequence is empty, so the scan writes nothing and reports success),
rather than being rejected. -/
theorem claim_C9_counterexample :
    setCommitIndex NoopApp 5 (initWorld NoopApp noopReg) =
      (none, initWorld NoopApp noopReg) := rfl

/-- Witness for the amended C9, with each case discharged at its own
concrete instance: a closed empty log rejects Append, rejects a
regressing commit request, accepts a forward request as a no-op, and a
closed log still holding an uncommitted entry in range fails with the
invalid-argument write error. -/
theorem claim_C9_unopened_operations_witness :
    append NoopApp ⟨1, 1, ()⟩
        (⟨⟨false, [], 3, noopReg⟩, some []⟩ : World NoopApp) =
      (some errNotOpen, ⟨⟨false, [], 3, noopReg⟩, some []⟩) ∧
    setCommitIndex NoopApp 2 (⟨⟨false, [], 3, noopReg⟩, some []⟩ : World NoopApp) =
      (some errCommitRegression, ⟨⟨false, [], 3, noopReg⟩, some []⟩) ∧
    setCommitIndex NoopApp 5 (⟨⟨false, [], 3, noopReg⟩, some []⟩ : World NoopApp) =
      (none, ⟨⟨false, [], 3, noopReg⟩, some []⟩) ∧
    setCommitIndex NoopApp 5
        (⟨⟨false, [⟨4, 1, ()⟩], 3, noopReg⟩, some []⟩ : World NoopApp) =
      (some errInvalid, ⟨⟨false, [⟨4, 1, ()⟩], 3, noopReg⟩, some []⟩) :=
  ⟨(claim_C9_unopened_operations NoopApp ⟨⟨false, [], 3, noopReg⟩, some []⟩
      ⟨1, 1, ()⟩ 2 rfl).1,
   (claim_C9_unopened_operations NoopApp ⟨⟨false, [], 3, noopReg⟩, some []⟩
      ⟨1, 1, ()⟩ 2 rfl).2.1 (by norm_num),
   (claim_C9_unopened_operations NoopApp ⟨⟨false, [], 3, noopReg⟩, some []⟩
      ⟨1, 1, ()⟩ 5 rfl).2.2.1 (by norm_num) rfl,
   (claim_C9_unopened_operations NoopApp ⟨⟨false, [⟨4, 1, ()⟩], 3, noopReg⟩, some []⟩
      ⟨1, 1, ()⟩ 5 rfl).2.2.2 (by norm_num)
      (by
        intro x hx
        exact ⟨[123, 125], rfl⟩)
      ⟨⟨4, 1, ()⟩, by simp, by norm_num, by norm_num⟩⟩

/-- C10.  Close frame: Close drops the file handle and clears the
in-memory sequence but leaves the commit index at its prior value and
the file contents untouched; a later SetCommitIndex on the same
instance is still measured against the pre-Close commit position, so a
request below it is still rejected. -/
theorem claim_C10_close_frame (app : App) (w : World app) (j : Nat)
    (hj : j < w.log.commitIndex) :
    (close app w).log.commitIndex = w.log.commitIndex ∧
    (close app w).log.entries = [] ∧
    (close app w).log.isOpen = false ∧
    (close app w).file = w.file ∧
    setCommitIndex app j (close app w) = (some errCommitRegression, close app w) :=
  ⟨rfl, rfl, rfl, rfl, setCommitIndex_regress hj⟩

/-- Witness for C10: closing a log with commit index 4, then asking to
commit index 1. -/
theorem claim_C10_close_frame_witness :
    (close NoopApp (⟨⟨true, [⟨4, 1, ()⟩], 4, noopReg⟩, some [97]⟩ : World NoopApp)).log.commitIndex =
      (⟨⟨true, [⟨4, 1, ()⟩], 4, noopReg⟩, some [97]⟩ : World NoopApp).log.commitIndex ∧
    (close NoopApp (⟨⟨true, [⟨4, 1, ()⟩], 4, noopReg⟩, some [97]⟩ : World NoopApp)).log.entries = [] ∧
    (close NoopApp (⟨⟨true, [⟨4, 1, ()⟩], 4, noopReg⟩, some [97]⟩ : World NoopApp)).log.isOpen = false ∧
    (close NoopApp (⟨⟨true, [⟨4, 1, ()⟩], 4, noopReg⟩, some [97]⟩ : World NoopApp)).file =
      (⟨⟨true, [⟨4, 1, ()⟩], 4, noopReg⟩, some [97]⟩ : World NoopApp).file ∧
    setCommitIndex NoopApp 1
        (close NoopApp (⟨⟨true, [⟨4, 1, ()⟩], 4, noopReg⟩, some [97]⟩ : World NoopApp)) =
      (some errCommitRegression,
        close NoopApp (⟨⟨true, [⟨4, 1, ()⟩], 4, noopReg⟩, some [97]⟩ : World NoopApp)) :=
  claim_C10_close_frame NoopApp (⟨⟨true, [⟨4, 1, ()⟩], 4, noopReg⟩, some [97]⟩ : World NoopApp) 1
    (by norm_num)

end Raft
